import Mathlib

/-!
# 3TL Go parser (src/go/pkg/parser/parser.go): shallow embedding

This file embeds the 3TL parser implemented in Go with the Participle
library.  The lexer rules (the `lexer.MustSimple` list), the grammar
given by the struct tags, the tree transformation `transform`, the type
renderer `formatType` and the field classifier `cleanField` are each
translated into executable Lean definitions over `List Char`.

Modelling notes, applied throughout:
* A grammar literal (`'#'`, `'!'`, `':'`, ...) matches a single token
  whose `Value` equals the literal text exactly, Participle's
  semantics.  The lexer emits `#!` and `#@` as single tokens
  (`TableMarker`, `SchemaMarker`, values `"#!"`/`"#@"`) and `# ...` as
  a single `Comment` token, so the `'#' '!'`, `'#' '@'` and `'#'`
  literal sequences of `tableHeader`/`schemaDef`/`comment` never match
  them; a token with value `"#"` arises only from a `#` that ends the
  input (every other `#` is swallowed by the `Comment`/marker rules),
  hence those three `line` alternatives are unsatisfiable on lexer
  output and every line with content parses as a `dataRow`.
* The `Punct` rule `[-[!@#$%^&*()+_={}\|:;"'<,>.?/]|\[\]` never
  matches `]`: the character class lacks `]`, and at `[]` the class
  alternative, tried first under Go's leftmost-first regexp semantics,
  matches `[` alone, leaving the `\[\]` alternative dead.  A `]` at a
  token start is therefore a lexing failure.
* Alternatives in a rule are tried in order with one token of lookahead
  (Participle's default): an alternative that fails after consuming two
  or more tokens aborts the whole parse; an alternative that fails
  after consuming at most one token is rolled back and the next
  alternative is tried.
* `strconv.ParseInt`/`strconv.ParseFloat` are modelled exactly at the
  level of acceptance (syntax, specials, int64/float64 range); the
  numeric payload of an accepted finite float is kept as the exact
  rational value of the literal instead of its IEEE-754 rounding, which
  no statement below depends on.
-/

set_option maxRecDepth 100000

namespace ThreeTL

/-! ## Character classes (lexer rules, parser.go lines 76-88) -/

def isDigitC (c : Char) : Bool :=
  decide (48 ≤ c.toNat) && decide (c.toNat ≤ 57)

def isAsciiLowerC (c : Char) : Bool :=
  decide (97 ≤ c.toNat) && decide (c.toNat ≤ 122)

def isAsciiUpperC (c : Char) : Bool :=
  decide (65 ≤ c.toNat) && decide (c.toNat ≤ 90)

/-- ASCII word character, the class `\w` used by Go's `\b` assertion. -/
def isWordChar (c : Char) : Bool :=
  isDigitC c || isAsciiLowerC c || isAsciiUpperC c || c = '_'

def asciiLowerChar (c : Char) : Char :=
  if isAsciiUpperC c then Char.ofNat (c.toNat + 32) else c

def lowerStr (l : List Char) : List Char := l.map asciiLowerChar

def inRangeC (c : Char) (lo hi : Nat) : Bool :=
  decide (lo ≤ c.toNat) && decide (c.toNat ≤ hi)

/-- First character of an `Ident` token: the character class of the
`Ident` lexer rule (ASCII letters, underscore, and the listed Unicode
ranges: Latin-1 supplement/Latin extended, Latin extended additional,
Cyrillic, Greek, CJK unified ideographs, Hiragana, Katakana). -/
def identStartChar (c : Char) : Bool :=
  isAsciiLowerC c || isAsciiUpperC c || c = '_' ||
  inRangeC c 0xC0 0x24F || inRangeC c 0x1E00 0x1EFF ||
  inRangeC c 0x400 0x4FF || inRangeC c 0x370 0x3FF ||
  inRangeC c 0x4E00 0x9FFF || inRangeC c 0x3040 0x309F ||
  inRangeC c 0x30A0 0x30FF

/-- Continuation character of an `Ident` token: the start class plus
ASCII digits. -/
def identContChar (c : Char) : Bool := identStartChar c || isDigitC c

/-- `unicode.IsSpace`, the class trimmed by `strings.TrimSpace`. -/
def goIsSpace (c : Char) : Bool :=
  c = ' ' || c = '\t' || c = '\n' || c = '\x0b' || c = '\x0c' || c = '\r' ||
  c = '\x85' || c = '\xa0' || c.toNat = 0x1680 ||
  inRangeC c 0x2000 0x200A || c.toNat = 0x2028 || c.toNat = 0x2029 ||
  c.toNat = 0x202F || c.toNat = 0x205F || c.toNat = 0x3000

def goTrimSpace (l : List Char) : List Char :=
  ((l.dropWhile goIsSpace).reverse.dropWhile goIsSpace).reverse

/-! ## Tokens -/

inductive Tok where
  | comment (s : List Char)
  | tblMark
  | schMark
  | tyName (s : List Char)
  | strLit (s : List Char)
  | num (s : List Char)
  | ident (s : List Char)
  | punct (c : Char)
  | nl
  deriving DecidableEq, Repr

/-- The raw text a token matched (Participle's token `Value`). -/
def tokValue : Tok → List Char
  | .comment s => s
  | .tblMark => ['#', '!']
  | .schMark => ['#', '@']
  | .tyName s => s
  | .strLit s => s
  | .num s => s
  | .ident s => s
  | .punct c => [c]
  | .nl => ['\n']

/-! ## Lexer rule matchers, in the order of the `lexer.MustSimple` list -/

/-- `span`-style splitter controlled by a character predicate. -/
def spanP (p : Char → Bool) : List Char → List Char × List Char
  | [] => ([], [])
  | c :: r =>
    if p c then
      let (a, b) := spanP p r
      (c :: a, b)
    else ([], c :: r)

/-- Rule `Comment`: `#[^!@][^\n]*`.  The second character may be any
character other than `!` and `@`, including a line break. -/
def matchComment (l : List Char) : Option (List Char × List Char) :=
  match l with
  | c0 :: c :: r =>
    if c0 = '#' && !(c = '!') && !(c = '@') then
      let (a, b) := spanP (fun x => !(x = '\n')) r
      some (c0 :: c :: a, b)
    else none
  | _ => none

def matchTblMark (l : List Char) : Option (List Char) :=
  match l with
  | c0 :: c1 :: r => if c0 = '#' && c1 = '!' then some r else none
  | _ => none

def matchSchMark (l : List Char) : Option (List Char) :=
  match l with
  | c0 :: c1 :: r => if c0 = '#' && c1 = '@' then some r else none
  | _ => none

/-- The keyword alternatives of the `TypeName` rule, in source order. -/
def typeKeywords : List (List Char) :=
  [['i', '8'], ['i', '1', '6'], ['i', '3', '2'], ['i', '6', '4'],
   ['i', 'n', 't'], ['u', '8'], ['u', '1', '6'], ['u', '3', '2'],
   ['u', '6', '4'], ['u', 'i', 'n', 't'], ['f', '3', '2'], ['f', '6', '4'],
   ['f', 'l', 'o', 'a', 't'], ['b', 'o', 'o', 'l'], ['s', 't', 'r'],
   ['t', 'e', 'x', 't'], ['d', 'a', 't', 'e'], ['t', 'i', 'm', 'e'],
   ['d', 'a', 't', 'e', 't', 'i', 'm', 'e'],
   ['t', 'i', 'm', 'e', 's', 't', 'a', 'm', 'p'],
   ['d', 'e', 'c', 'i', 'm', 'a', 'l'], ['r', 'e', 'f'],
   ['e', 'n', 'u', 'm']]

/-- Case-insensitive match of an input character against a lowercase
keyword character, per Go's `(?i)` (Unicode simple case folding).  For
the letters occurring in the keywords the only non-ASCII orbit member
in the identifier ranges is long s (U+017F), which folds with `s`. -/
def charMatchesKw (c kc : Char) : Bool :=
  asciiLowerChar c = kc || (kc = 's' && c = 'ſ')

/-- Try one keyword alternative as a prefix; return matched text (input
spelling) and the rest. -/
def matchKwPre : List Char → List Char → Option (List Char × List Char)
  | [], l => some ([], l)
  | _ :: _, [] => none
  | k :: ks, c :: r =>
    if charMatchesKw c k then
      (matchKwPre ks r).map (fun (t, rest) => (c :: t, rest))
    else none

/-- Rule `TypeName`: `(?i)(i8|...|enum)\b`.  Alternatives are tried in
order; each must be followed by a word boundary. -/
def matchTypeName (l : List Char) : Option (List Char × List Char) :=
  go typeKeywords
where
  go : List (List Char) → Option (List Char × List Char)
    | [] => none
    | k :: ks =>
      match matchKwPre k l with
      | some (t, rest) =>
        if boundaryOk rest then some (t, rest)
        else go ks
      | none => go ks
  boundaryOk : List Char → Bool
    | [] => true
    | c :: _ => !isWordChar c

/-- Scan the body of a `String` token after its opening quote: `""` is
consumed as an escape, a single `"` closes.  Returns the raw body text
(escapes untouched) and the rest after the closing quote. -/
def scanStrBody : List Char → Option (List Char × List Char)
  | [] => none
  | [c] => if c = '"' then some ([], []) else none
  | c :: c2 :: r2 =>
    if c = '"' then
      if c2 = '"' then
        (scanStrBody r2).map (fun (b, rest) => ('"' :: '"' :: b, rest))
      else some ([], c2 :: r2)
    else (scanStrBody (c2 :: r2)).map (fun (b, rest) => (c :: b, rest))

/-- Rule `String`: `"(?:[^"]|"")*"`.  The token value keeps the
surrounding quotes. -/
def matchString (l : List Char) : Option (List Char × List Char) :=
  match l with
  | c :: r =>
    if c = '"' then (scanStrBody r).map (fun (b, rest) => ('"' :: b ++ ['"'], rest))
    else none
  | [] => none

/-- The fraction part of the `Number` rule (greedy: taken exactly when
a digit follows the dot). -/
def matchNumFrac (sgn ds : List Char) : List Char → Option (List Char × List Char)
  | d :: r2 =>
    if d = '.' then
      let (fs, r3) := spanP isDigitC r2
      if fs = [] then some (sgn ++ ds, d :: r2)
      else some (sgn ++ ds ++ '.' :: fs, r3)
    else some (sgn ++ ds, d :: r2)
  | [] => some (sgn ++ ds, [])

/-- The digit part of the `Number` rule, after the optional sign. -/
def matchNumTail (sgn l1 : List Char) : Option (List Char × List Char) :=
  let (ds, r1) := spanP isDigitC l1
  if ds = [] then none else matchNumFrac sgn ds r1

/-- Rule `Number`: `-?\d+(?:\.\d+)?`. -/
def matchNumber (l : List Char) : Option (List Char × List Char) :=
  match l with
  | [] => none
  | c :: r => if c = '-' then matchNumTail [c] r else matchNumTail [] (c :: r)

/-- Rule `Ident`. -/
def matchIdent : List Char → Option (List Char × List Char)
  | [] => none
  | c :: r =>
    if identStartChar c then
      let (a, b) := spanP identContChar r
      some (c :: a, b)
    else none

/-- The characters the `Punct` rule can match: exactly its character
class.  `]` is not in the class, and the rule's `\[\]` alternative is
preempted at `[]` by the class matching `[` first (leftmost-first), so
`]` is never lexable. -/
def isPunctChar (c : Char) : Bool :=
  c = '-' || c = '[' || c = '!' || c = '@' || c = '#' || c = '$' ||
  c = '%' || c = '^' || c = '&' || c = '*' || c = '(' || c = ')' ||
  c = '+' || c = '_' || c = '=' || c = '\x7b' || c = '\x7d' || c = '|' ||
  c = ':' || c = ';' || c = '"' || c = '\'' || c = '<' || c = ',' ||
  c = '>' || c = '.' || c = '?' || c = '/'

/-- The tail of the `Newline` rule after a carriage return. -/
def lexCRLF : List Char → Option (Option Tok × List Char)
  | c2 :: r2 => if c2 = '\n' then some (some .nl, r2) else none
  | [] => none

/-- The rules after `Ident`: `Punct`, `Newline`, elided whitespace. -/
def lexOther (c : Char) (r : List Char) : Option (Option Tok × List Char) :=
  if isPunctChar c then some (some (.punct c), r)
  else if c = '\n' then some (some .nl, r)
  else if c = '\r' then lexCRLF r
  else if c = ' ' || c = '\t' then
    let (_, b) := spanP (fun x => x = ' ' || x = '\t') r
    some (none, b)
  else none

/-- One lexer step: try the rules in source order; `none` in the first
component marks elided whitespace.  Fails (returns `none`) when no rule
matches, as Participle's lexer does. -/
def nextTok (l : List Char) : Option (Option Tok × List Char) :=
  match matchComment l with
  | some (t, r) => some (some (.comment t), r)
  | none =>
  match matchTblMark l with
  | some r => some (some .tblMark, r)
  | none =>
  match matchSchMark l with
  | some r => some (some .schMark, r)
  | none =>
  match matchTypeName l with
  | some (t, r) => some (some (.tyName t), r)
  | none =>
  match matchString l with
  | some (t, r) => some (some (.strLit t), r)
  | none =>
  match matchNumber l with
  | some (t, r) => some (some (.num t), r)
  | none =>
  match matchIdent l with
  | some (t, r) => some (some (.ident t), r)
  | none =>
  match l with
  | c :: r => lexOther c r
  | [] => none

/-- Fuel-driven tokenizer loop.  Every lexer rule consumes at least one
character, so `l.length + 1` fuel always suffices. -/
def tokenizeF : Nat → List Char → Option (List Tok)
  | 0, _ => none
  | _ + 1, [] => some []
  | n + 1, l =>
    match nextTok l with
    | none => none
    | some (ot, rest) =>
      match tokenizeF n rest with
      | none => none
      | some ts =>
        match ot with
        | none => some ts
        | some t => some (t :: ts)

def tokenize (l : List Char) : Option (List Tok) := tokenizeF (l.length + 1) l

/-! ## `strconv.ParseInt` (base 10, 64 bit), as called by `cleanField` -/

def digitsVal (l : List Char) : Nat :=
  l.foldl (fun a c => a * 10 + (c.toNat - 48)) 0

def int64Min : Int := -(2 ^ 63)

def int64Max : Int := 2 ^ 63 - 1

/-- `strconv.ParseInt(value, 10, 64)`: optional sign (`+` or `-`), one
or more ASCII digits, result within the int64 range; `none` models a
returned error (syntax or range). -/
def goParseInt64 (l : List Char) : Option Int :=
  let (neg, l1) :=
    match l with
    | '+' :: r => (false, r)
    | '-' :: r => (true, r)
    | _ => (false, l)
  if l1 = [] then none
  else if l1.all isDigitC then
    let v : Int := if neg then -(digitsVal l1 : Int) else (digitsVal l1 : Int)
    if int64Min ≤ v && v ≤ int64Max then some v else none
  else none

/-! ## `strconv.ParseFloat` (64 bit), as called by `cleanField`

Acceptance is modelled exactly (specials, decimal and hexadecimal
mantissas, exponents, digit-separating underscores, full-string
consumption, float64 overflow).  The payload of an accepted finite
literal is its exact rational value; the IEEE-754 rounding step is not
modelled (nothing below inspects the rounded value). -/

inductive GoFloat where
  | finite (q : ℚ)
  | inf (neg : Bool)
  | nan
  deriving DecidableEq, Repr

def isHexDigitC (c : Char) : Bool :=
  isDigitC c || ('a' ≤ c && c ≤ 'f') || ('A' ≤ c && c ≤ 'F')

def hexDigitVal (c : Char) : Nat :=
  if isDigitC c then c.toNat - 48
  else if 'a' ≤ c && c ≤ 'f' then c.toNat - 87
  else c.toNat - 55

def hexVal (l : List Char) : Nat :=
  l.foldl (fun a c => a * 16 + hexDigitVal c) 0

/-- The special values recognized by `ParseFloat`: `inf`/`infinity`
with an optional sign, `nan` without one, all case-insensitively, and
only when they span the whole input. -/
def goFloatSpecial (l : List Char) : Option GoFloat :=
  let (sgn, neg, l1) :=
    match l with
    | '+' :: r => (true, false, r)
    | '-' :: r => (true, true, r)
    | _ => (false, false, l)
  let low := lowerStr l1
  if low = ['i', 'n', 'f'] || low = ['i', 'n', 'f', 'i', 'n', 'i', 't', 'y'] then
    some (.inf neg)
  else if !sgn && low = ['n', 'a', 'n'] then some .nan
  else none

/-- State of the mantissa scan of `readFloat`. -/
structure MantScan where
  digits : List Char
  sawdot : Bool
  dotPos : Nat
  sawdigits : Bool
  uscore : Bool

def scanMant (hex : Bool) : List Char → MantScan → MantScan × List Char
  | [], st => (st, [])
  | c :: r, st =>
    if c = '_' then scanMant hex r { st with uscore := true }
    else if c = '.' then
      if st.sawdot then (st, c :: r)
      else scanMant hex r { st with sawdot := true, dotPos := st.digits.length }
    else if isDigitC c || (hex && isHexDigitC c) then
      scanMant hex r { st with digits := st.digits ++ [c], sawdigits := true }
    else (st, c :: r)

/-- The exponent part after the exponent character: optional sign, a
leading digit, then digits and underscores.  `none` rejects the whole
literal, as `readFloat` does on a malformed exponent. -/
def scanExpPart (l : List Char) : Option (Int × Bool × List Char) :=
  let (esgn, l1) :=
    match l with
    | '+' :: r => ((1 : Int), r)
    | '-' :: r => ((-1 : Int), r)
    | _ => ((1 : Int), l)
  match l1 with
  | c :: _ =>
    if isDigitC c then
      let (ds, rest) := spanP (fun x => isDigitC x || x = '_') l1
      let digs := ds.filter isDigitC
      some (esgn * (digitsVal digs : Int), ds.any (fun x => x = '_'), rest)
    else none
  | [] => none

/-- `strconv`'s `underscoreOK`: underscores must separate digits (or
follow a base prefix). -/
def underscoreOK (l : List Char) : Bool :=
  let l1 :=
    match l with
    | '+' :: r => r
    | '-' :: r => r
    | _ => l
  let (hex, start, saw0) :=
    match l1 with
    | '0' :: b :: r =>
      if asciiLowerChar b = 'b' || asciiLowerChar b = 'o' ||
          asciiLowerChar b = 'x' then
        (decide (asciiLowerChar b = 'x'), r, true)
      else (false, l1, false)
    | _ => (false, l1, false)
  go hex start (if saw0 then '0' else '^')
where
  go (hex : Bool) : List Char → Char → Bool
    | [], saw => !(saw = '_')
    | c :: r, saw =>
      if isDigitC c || (hex && ('a' ≤ asciiLowerChar c && asciiLowerChar c ≤ 'f')) then
        go hex r '0'
      else if c = '_' then
        if saw = '0' then go hex r '_' else false
      else if saw = '_' then false
      else go hex r '!'

/-- Largest magnitude accepted by `ParseFloat` without a range error:
values of at least `2^1024 - 2^970` round to infinity. -/
def float64LimN : Nat := 2 ^ 1024 - 2 ^ 970

/-- Whether `mant * base ^ e` reaches the overflow threshold (stated
over naturals on both sides of the scale). -/
def floatOverflowN (mant base : Nat) (e : Int) : Bool :=
  if 0 ≤ e then decide (float64LimN ≤ mant * base ^ e.toNat)
  else decide (float64LimN * base ^ (-e).toNat ≤ mant)

/-- The exact rational value `± mant * base ^ e`. -/
def qlit (neg : Bool) (mant base : Nat) (e : Int) : ℚ :=
  let n : Int := if neg then -(mant : Int) else (mant : Int)
  if 0 ≤ e then mkRat (n * ((base ^ e.toNat : Nat) : Int)) 1
  else mkRat n (base ^ (-e).toNat)

/-- `strconv.ParseFloat(value, 64)`; `none` models a returned error. -/
def goParseFloat (l : List Char) : Option GoFloat :=
  match goFloatSpecial l with
  | some f => some f
  | none =>
    let (neg, l1) :=
      match l with
      | '+' :: r => (false, r)
      | '-' :: r => (true, r)
      | _ => (false, l)
    let (hex, body) :=
      match l1 with
      | '0' :: b :: c :: r =>
        if asciiLowerChar b = 'x' then (true, c :: r) else (false, l1)
      | _ => (false, l1)
    let (st, r1) := scanMant hex body
      ⟨[], false, 0, false, false⟩
    if !st.sawdigits then none
    else
      let dp : Int := if st.sawdot then st.dotPos else st.digits.length
      let expChar : Char := if hex then 'p' else 'e'
      let step : Option (Int × Bool × List Char) :=
        match r1 with
        | c :: r2 =>
          if asciiLowerChar c = expChar then scanExpPart r2
          else if hex then none else some (0, false, r1)
        | [] => if hex then none else some (0, false, r1)
      match step with
      | none => none
      | some (e, us2, rest) =>
        if !rest.isEmpty then none
        else if (st.uscore || us2) && !underscoreOK l then none
        else
          let mant : Nat := if hex then hexVal st.digits else digitsVal st.digits
          let scale : Int := dp - st.digits.length
          let base : Nat := if hex then 2 else 10
          let ex : Int := if hex then 4 * scale + e else scale + e
          if floatOverflowN mant base ex then none
          else some (.finite (qlit neg mant base ex))

/-! ## Values and `cleanField` (parser.go lines 220-257) -/

inductive Value where
  | null
  | bool (b : Bool)
  | int (n : Int)
  | float (f : GoFloat)
  | str (s : String)
  deriving DecidableEq, Repr

/-- A parsed `field` node: `Quoted` holds the raw `String` token
(quotes included), `Unquoted` the concatenated captured token text; a
field that captured nothing leaves both pointers nil. -/
inductive PField where
  | quoted (s : List Char)
  | unquoted (s : List Char)
  | fempty
  deriving DecidableEq, Repr

def trimOneQuotePre (l : List Char) : List Char :=
  match l with
  | '"' :: r => r
  | _ => l

def trimOneQuoteSuf (l : List Char) : List Char :=
  match l.getLast? with
  | some '"' => l.dropLast
  | _ => l

/-- `strings.ReplaceAll(value, "\"\"", "\"")` (left to right,
non-overlapping). -/
def unescapeQQ : List Char → List Char
  | '"' :: '"' :: r => '"' :: unescapeQQ r
  | c :: r => c :: unescapeQQ r
  | [] => []

/-- The classification tail of `cleanField`, applied to the prepared
text `value`.  `strings.ToLower` is modelled by ASCII lowering: for
equality against `null`/`true`/`false` the two agree on every string,
since no character outside ASCII lower-cases to any of those letters. -/
def classifyValue (value : List Char) : Value :=
  if value = [] || lowerStr value = ['n', 'u', 'l', 'l'] then .null
  else if lowerStr value = ['t', 'r', 'u', 'e'] then .bool true
  else if lowerStr value = ['f', 'a', 'l', 's', 'e'] then .bool false
  else
    match goParseInt64 value with
    | some n => .int n
    | none =>
      match goParseFloat value with
      | some f => .float f
      | none => .str (String.mk value)

/-- `cleanField`: a quoted field is unquoted and unescaped, an unquoted
field is whitespace-trimmed, an empty field is nil; the prepared text
is then classified. -/
def cleanField : PField → Value
  | .quoted s => classifyValue (unescapeQQ (trimOneQuoteSuf (trimOneQuotePre s)))
  | .unquoted s => classifyValue (goTrimSpace s)
  | .fempty => .null

/-- The classification applied to a raw unquoted field text: trim, then
classify (the composite the spec's §4.5 describes). -/
def cleanFieldText (s : String) : Value := classifyValue (goTrimSpace s.data)

/-! ## Grammar (struct tags, parser.go lines 34-74) -/

structure ColumnDef where
  name : List Char
  typeName : List Char
  params : List (List Char)
  array : Bool
  nullable : Bool
  deriving DecidableEq, Repr

inductive Line where
  | comment
  | header (name : List Char)
  | schema (cols : List ColumnDef)
  | row (fields : List PField)
  | empty
  deriving DecidableEq, Repr

/-- Token admissible inside an unquoted field:
`~( ',' | Newline | '#' )`. -/
def fieldTokOk (t : Tok) : Bool :=
  !(tokValue t = [',']) && !(tokValue t = ['#']) && !(t = .nl)

def spanT (p : Tok → Bool) : List Tok → List Tok × List Tok
  | [] => ([], [])
  | t :: r =>
    if p t then
      let (a, b) := spanT p r
      (t :: a, b)
    else ([], t :: r)

/-- One `field` node: a `String` token, or the concatenation of a
(possibly empty) run of admissible tokens. -/
def pField : List Tok → PField × List Tok
  | .strLit s :: r => (.quoted s, r)
  | toks =>
    let (run, rest) := spanT fieldTokOk toks
    if run = [] then (.fempty, rest)
    else (.unquoted (run.foldr (fun t acc => tokValue t ++ acc) []), rest)

/-- `( ',' field )*`, with fuel (every iteration consumes the comma). -/
def pRowRestF : Nat → List Tok → List PField × List Tok
  | 0, toks => ([], toks)
  | n + 1, .punct ',' :: r =>
    let (f, r2) := pField r
    let (fs, r3) := pRowRestF n r2
    (f :: fs, r3)
  | _ + 1, toks => ([], toks)

/-- `( ( ',' | '.' | '|' ) @( Ident | Number ) )* ')'` — the tail of the
parameter group of `columnDef`. -/
def pParamsTail : List Tok → Option (List (List Char) × List Tok)
  | .punct ')' :: r => some ([], r)
  | .punct c :: .ident s :: r =>
    if c = ',' || c = '.' || c = '|' then
      (pParamsTail r).map (fun (ps, rest) => (s :: ps, rest))
    else none
  | .punct c :: .num s :: r =>
    if c = ',' || c = '.' || c = '|' then
      (pParamsTail r).map (fun (ps, rest) => (s :: ps, rest))
    else none
  | _ => none

/-- `columnDef`: `@Ident ':' @TypeName params? ( '[' ']' )? '?'?`.  The
optional modifier groups roll back when they do not match, as
Participle's option nodes do. -/
def pColumnDef (toks : List Tok) : Option (ColumnDef × List Tok) :=
  match toks with
  | .ident nm :: .punct ':' :: .tyName tn :: r =>
    let pstep : Option (List (List Char) × List Tok) :=
      match r with
      | .punct '(' :: .ident s :: r3 =>
        (pParamsTail r3).map (fun (ps, rest) => (s :: ps, rest))
      | .punct '(' :: .num s :: r3 =>
        (pParamsTail r3).map (fun (ps, rest) => (s :: ps, rest))
      | .punct '(' :: _ => none
      | _ => some ([], r)
    match pstep with
    | none => none
    | some (ps, r4) =>
      let (arr, r5) :=
        match r4 with
        | .punct '[' :: .punct ']' :: r5 => (true, r5)
        | _ => (false, r4)
      let (nul, r6) :=
        match r5 with
        | .punct '?' :: r6 => (true, r6)
        | _ => (false, r5)
      some (⟨nm, tn, ps, arr, nul⟩, r6)
  | _ => none

/-- `( ',' columnDef )*`, with fuel. -/
def pSchemaTailF : Nat → List Tok → Option (List ColumnDef × List Tok)
  | 0, _ => none
  | n + 1, .punct ',' :: r =>
    (pColumnDef r).bind fun (c, r2) =>
      (pSchemaTailF n r2).map fun (cs, rest) => (c :: cs, rest)
  | _ + 1, toks => some ([], toks)

/-- Result of trying to parse one `line`. -/
inductive LineRes where
  | ok (ln : Line) (rest : List Tok)
  | hardErr
  | soft
  deriving DecidableEq, Repr

/-- Outcome of one alternative of `line`: success, or failure together
with the number of tokens the alternative consumed before failing (the
one-token-lookahead threshold is all that is ever read off it). -/
inductive AltRes where
  | ok (ln : Line) (rest : List Tok)
  | fail (consumed : Nat)
  deriving DecidableEq, Repr

/-- A grammar literal matches one token whose `Value` is exactly the
literal text (Participle's semantics for quoted terminals). -/
def litTok (s : List Char) (t : Tok) : Bool := tokValue t = s

/-- The `comment` alternative `'#' ( ![@!] @( ~Newline )* )? Newline`:
the leading literal needs a token of value `"#"` (a `Comment` token has
value `"#..."` of length ≥ 2 and does not qualify); the optional group
consumes one token whose value is neither `"@"` nor `"!"` and then a
run of non-`Newline` tokens. -/
def pCommentL (toks : List Tok) : AltRes :=
  match toks with
  | t0 :: r =>
    if litTok ['#'] t0 then
      let (grp, r2) :=
        match r with
        | t1 :: rr =>
          if !litTok ['@'] t1 && !litTok ['!'] t1 then
            let (a, b) := spanT (fun t => !(t = Tok.nl)) rr
            (t1 :: a, b)
          else ([], r)
        | [] => ([], r)
      match r2 with
      | .nl :: r3 => .ok .comment r3
      | _ => .fail (1 + grp.length)
    else .fail 0
  | [] => .fail 0

/-- The `tableHeader` alternative `'#' '!' @Ident Newline`: both
literals match by token value, so the single `TableMarker` token
(value `"#!"`) satisfies neither. -/
def pTableHeaderL (toks : List Tok) : AltRes :=
  match toks with
  | t0 :: r =>
    if litTok ['#'] t0 then
      match r with
      | t1 :: r2 =>
        if litTok ['!'] t1 then
          match r2 with
          | .ident n :: .nl :: r3 => .ok (.header n) r3
          | .ident _ :: _ => .fail 3
          | _ => .fail 2
        else .fail 1
      | [] => .fail 1
    else .fail 0
  | [] => .fail 0

/-- The `schemaDef` alternative `'#' '@' columnDef ( ',' columnDef )*
Newline`, again with value-matching literals (the `SchemaMarker` token
has value `"#@"` and matches neither literal). -/
def pSchemaDefL (toks : List Tok) : AltRes :=
  match toks with
  | t0 :: r =>
    if litTok ['#'] t0 then
      match r with
      | t1 :: r2 =>
        if litTok ['@'] t1 then
          match pColumnDef r2 with
          | none => .fail 2
          | some (c, r3) =>
            match pSchemaTailF (r3.length + 1) r3 with
            | none => .fail 2
            | some (cs, r4) =>
              match r4 with
              | .nl :: r5 => .ok (.schema (c :: cs)) r5
              | _ => .fail 2
        else .fail 1
      | [] => .fail 1
    else .fail 0
  | [] => .fail 0

/-- The `dataRow` alternative: `field ( ',' field )* Newline`. -/
def pDataRowL (toks : List Tok) : AltRes :=
  let (f, r) := pField toks
  let (fs, r2) := pRowRestF (r.length + 1) r
  match r2 with
  | .nl :: r3 => .ok (.row (f :: fs)) r3
  | _ => .fail (toks.length - r2.length)

/-- The `EmptyLine` alternative `@Newline`. -/
def pEmptyL (toks : List Tok) : AltRes :=
  match toks with
  | .nl :: r => .ok .empty r
  | _ => .fail 0

/-- One `line`: the five alternatives in source order, with one token
of lookahead — a failure that consumed two or more tokens aborts the
parse, otherwise the next alternative is tried.  On lexer output the
first three alternatives always fail on their `'#'` literals (no
marker or comment token has value `"#"`), so every line with content
parses as `dataRow`; a bare line break is also a `dataRow`, one with a
single empty field, since `dataRow` precedes `EmptyLine`. -/
def parseLine (toks : List Tok) : LineRes :=
  match toks with
  | [] => .soft
  | _ =>
    match pCommentL toks with
    | .ok ln rest => .ok ln rest
    | .fail c1 =>
      if c1 ≥ 2 then .hardErr else
      match pTableHeaderL toks with
      | .ok ln rest => .ok ln rest
      | .fail c2 =>
        if c2 ≥ 2 then .hardErr else
        match pSchemaDefL toks with
        | .ok ln rest => .ok ln rest
        | .fail c3 =>
          if c3 ≥ 2 then .hardErr else
          match pDataRowL toks with
          | .ok ln rest => .ok ln rest
          | .fail c4 =>
            if c4 ≥ 2 then .hardErr else
            match pEmptyL toks with
            | .ok ln rest => .ok ln rest
            | .fail _ => .soft

/-- The `line*` loop; any line failure leaves unconsumed tokens and the
parse of the whole file fails. -/
def parseLinesF : Nat → List Tok → Option (List Line)
  | 0, _ => none
  | _ + 1, [] => some []
  | n + 1, toks =>
    match parseLine toks with
    | .ok ln rest => (parseLinesF n rest).map (ln :: ·)
    | _ => none

def parseTokens (toks : List Tok) : Option (List Line) :=
  parseLinesF (toks.length + 1) toks

/-! ## `formatType` (parser.go lines 189-217) -/

def joinSep (sep : List Char) : List (List Char) → List Char
  | [] => []
  | [x] => x
  | x :: xs => x ++ sep ++ joinSep sep xs

def formatType (c : ColumnDef) : List Char :=
  let tn := lowerStr c.typeName
  let ts :=
    if c.params.length > 0 then
      if tn = ['d', 'e', 'c', 'i', 'm', 'a', 'l'] then
        match c.params with
        | p0 :: p1 :: _ =>
          ['d', 'e', 'c', 'i', 'm', 'a', 'l', '('] ++ p0 ++ [','] ++ p1 ++ [')']
        | _ => tn
      else if tn = ['r', 'e', 'f'] then
        match c.params with
        | p0 :: p1 :: _ => ['r', 'e', 'f', '('] ++ p0 ++ ['.'] ++ p1 ++ [')']
        | _ => tn
      else if tn = ['e', 'n', 'u', 'm'] then
        ['e', 'n', 'u', 'm', '('] ++ joinSep [' ', '|', ' '] c.params ++ [')']
      else tn
    else tn
  ts ++ (if c.array then ['[', ']'] else []) ++ (if c.nullable then ['?'] else [])

/-! ## Document model and `transform` (parser.go lines 16-32, 146-186) -/

structure Column where
  name : String
  type : String
  deriving DecidableEq, Repr

structure Table where
  name : String
  columns : List Column
  rows : List (List Value)
  deriving DecidableEq, Repr

structure Document where
  tables : List Table
  deriving DecidableEq, Repr

/-- One step of `transform`'s loop over lines: the accumulator is the
sealed tables so far and the current table, if any. -/
def transformStep (acc : List Table × Option Table) (ln : Line) :
    List Table × Option Table :=
  match ln with
  | .header n =>
    match acc.2 with
    | some t => (acc.1 ++ [t], some ⟨String.mk n, [], []⟩)
    | none => (acc.1, some ⟨String.mk n, [], []⟩)
  | .schema cols =>
    match acc.2 with
    | some t =>
      (acc.1, some { t with
        columns := t.columns ++
          cols.map (fun c => ⟨String.mk c.name, String.mk (formatType c)⟩) })
    | none => acc
  | .row fs =>
    match acc.2 with
    | some t => (acc.1, some { t with rows := t.rows ++ [fs.map cleanField] })
    | none => acc
  | .comment => acc
  | .empty => acc

def transformGo (lines : List Line) : Document :=
  match lines.foldl transformStep ([], none) with
  | (ts, some t) => ⟨ts ++ [t]⟩
  | (ts, none) => ⟨ts⟩

/-! ## Public entry points -/

/-- The parse tree of a 3TL text: the classified line list. -/
def parseLinesOf (s : String) : Option (List Line) :=
  (tokenize s.data).bind parseTokens

/-- `ParseString`: `none` models a returned parse error. -/
def parseString (s : String) : Option Document :=
  (parseLinesOf s).map transformGo

/-- The type-expression resolver: lex a type clause rendered as
`name ':' type-expr` and run the `columnDef` parser over all of it. -/
def resolveColumn (s : String) : Option ColumnDef :=
  (tokenize s.data).bind fun toks =>
    match pColumnDef toks with
    | some (c, []) => some c
    | _ => none

/-! ## Claim C2

The repository's own tests assert this scenario (one table `User`, two
columns, one row), but the grammar's `'#' '!'` and `'#' '@'` literal
sequences can never match the single `TableMarker`/`SchemaMarker`
tokens the lexer emits, so no `tableHeader` or `schemaDef` line is ever
recognized: every line parses as a data row, `transform` never creates
a table, and the parse returns a document with zero tables. -/

/-- C2: parsing `"#! User\n#@ id:uint, name:str\n1, Alice\n"` succeeds
but returns a document with zero tables — not the claimed one-table
document — because the header and schema lines parse as data rows and
are dropped by `transform` (no current table). -/
theorem c2_basic_scenario_evaluated :
    parseString "#! User\n#@ id:uint, name:str\n1, Alice\n" =
      some ⟨[]⟩ := by
  decide

/-! ## Claim C4

The repository documents both modifier orders (`SPECIFICATION.md`:
"Arrays and nullable can be combined in either order", listing
`int?[]`; the Go README: "Flexible array/nullable modifiers (int[]?,
int?[])"), but the `Punct` lexer rule never matches `]` (its character
class lacks `]` and the `\[\]` alternative is preempted by the class
matching `[` first), so a schema line in either order fails to lex. -/

/-- C4: the code accepts neither modifier order — both `a:int?[]` and
`a:int[]?` contain a `]` at a token start, which no lexer rule
matches, so both inputs are parse errors, and the `columnDef` fragment
likewise resolves neither rendering. -/
theorem c4_modifier_order_evaluated :
    parseString "#! T\n#@ a:int?[]\n" = none ∧
    parseString "#! T\n#@ a:int[]?\n" = none ∧
    resolveColumn "a:int?[]" = none ∧
    resolveColumn "a:int[]?" = none := by
  refine ⟨by decide, by decide, by decide, by decide⟩

/-! ## Claim C7

The repository's grammar (`SPECIFICATION.md`: `decimal_type =
/decimal/i "(" digits "," digits ")"`) requires both parameters and
claims such inputs fail, but the code raises no error: the schema line
is never even checked against `columnDef` (the `schemaDef` alternative
is unsatisfiable), and the `columnDef` fragment itself makes the whole
parameter group optional. -/

/-- C7: an input declaring `price:decimal` parses without error and
returns the zero-table document (the schema line is consumed as a data
row), instead of failing atomically with a `ParseError` as claimed;
and even the `columnDef` grammar fragment accepts the bare `decimal`
with no parameters. -/
theorem c7_bare_decimal_evaluated :
    parseString "#! P\n#@ price:decimal\n" = some ⟨[]⟩ ∧
    parseString "#! P\n#@ price:decimal(10)\n" = some ⟨[]⟩ ∧
    resolveColumn "price:decimal" =
      some ⟨['p', 'r', 'i', 'c', 'e'], ['d', 'e', 'c', 'i', 'm', 'a', 'l'],
        [], false, false⟩ := by
  refine ⟨by decide, by decide, by decide⟩

/-! ## Claim C6: `ToJSON` (parser.go lines 117-132)

`ToJSON` marshals the `Document` with `encoding/json` (indented or
compact; `MarshalIndent` is `Marshal` plus reindentation, so both
succeed or fail together).  Every value reachable in a `Document` is
supported by the encoder except a non-finite `float64`, on which
`json.Marshal` returns an `UnsupportedValueError`.  The emitted text is
not modelled; only success or failure is. -/

/-- Whether `encoding/json` supports a row value: all are, except the
non-finite floats. -/
def valueEncOk : Value → Bool
  | .float (.inf _) => false
  | .float .nan => false
  | _ => true

/-- The encoder walk of `ToJSON(doc, pretty)`: success of the marshal
of every table's rows (`pretty` selects formatting only). -/
def toJSONOk (doc : Document) (_pretty : Bool) : Bool :=
  doc.tables.all (fun t => t.rows.all (fun r => r.all valueEncOk))

/-- A document none of whose row values is a non-finite float. -/
def docNoNonfinite (doc : Document) : Prop :=
  ∀ t ∈ doc.tables, ∀ r ∈ t.rows, ∀ v ∈ r, valueEncOk v = true

/-- C6 (amended): serialization succeeds, for both formatting modes,
exactly on documents with no non-finite float row value — it is not
total on the exported `Document` type, whose `Rows [][]any` admits
`math.Inf`/`math.NaN` float64 values on which `json.Marshal` and
`json.MarshalIndent` return an `UnsupportedValueError`. -/
theorem c6_tojson_total_except_nonfinite :
    ∀ (doc : Document) (pretty : Bool),
      toJSONOk doc pretty = true ↔ docNoNonfinite doc := by
  intro doc pretty
  simp [toJSONOk, docNoNonfinite, List.all_eq_true]

/-- C6 counterexample: a `Document` holding a `+Inf` row value — a
value of the exported, caller-constructible `Document` type — fails to
serialize in both modes, so `serialize` is not total on every
`Document`. -/
theorem c6_counterexample :
    toJSONOk ⟨[⟨"T", [⟨"v", "f64"⟩], [[Value.float (.inf false)]]⟩]⟩
        false = false ∧
    toJSONOk ⟨[⟨"T", [⟨"v", "f64"⟩], [[Value.float (.inf false)]]⟩]⟩
        true = false ∧
    valueEncOk (Value.float (.inf false)) = false :=
  ⟨by decide, by decide, by decide⟩

/-! ## Claim C1: classification of raw field text -/

/-- The numeric pattern named by the spec: `-?digits` or
`-?digits.digits`, spanning the whole text.  (Second definition for a
refinement comparison: this follows the spec's words.) -/
def specNumeric (l : List Char) : Bool :=
  let l1 :=
    match l with
    | '-' :: r => r
    | _ => l
  let (ds, r1) := spanP isDigitC l1
  if ds = [] then false
  else
    match r1 with
    | [] => true
    | '.' :: r2 =>
      let (fs, r3) := spanP isDigitC r2
      !fs.isEmpty && r3.isEmpty
    | _ => false

def specIntVal (l : List Char) : Int :=
  match l with
  | '-' :: r => -(digitsVal r : Int)
  | _ => (digitsVal l : Int)

def specRatVal (l : List Char) : ℚ :=
  let (neg, l1) :=
    match l with
    | '-' :: r => (true, r)
    | _ => (false, l)
  let (ds, r1) := spanP isDigitC l1
  let fs := (spanP isDigitC (r1.drop 1)).1
  qlit neg (digitsVal (ds ++ fs)) 10 (-(fs.length : Int))

/-- Classification by the ordered rules of spec §4.5, with the spec's
own numeric pattern.  (Second definition for a refinement comparison:
this follows the spec's words, not the code.) -/
def specClassify (s : String) : Value :=
  let t := goTrimSpace s.data
  if t = [] then .null
  else if lowerStr t = ['n', 'u', 'l', 'l'] then .null
  else if lowerStr t = ['t', 'r', 'u', 'e'] then .bool true
  else if lowerStr t = ['f', 'a', 'l', 's', 'e'] then .bool false
  else if specNumeric t then
    if t.contains '.' then .float (.finite (specRatVal t)) else .int (specIntVal t)
  else .str (String.mk t)

/-- Classification by the ordered rules of spec §4.5 with the numeric
step as the code has it: `strconv.ParseInt`, then `strconv.ParseFloat`
(the amendment C1 forces). -/
def specClassifyGo (s : String) : Value :=
  let t := goTrimSpace s.data
  if t = [] then .null
  else if lowerStr t = ['n', 'u', 'l', 'l'] then .null
  else if lowerStr t = ['t', 'r', 'u', 'e'] then .bool true
  else if lowerStr t = ['f', 'a', 'l', 's', 'e'] then .bool false
  else
    match goParseInt64 t with
    | some n => .int n
    | none =>
      match goParseFloat t with
      | some f => .float f
      | none => .str (String.mk t)

/-- C1 counterexample: the text `1e5` does not match the spec's numeric
pattern — the spec-worded rules classify it as the string `"1e5"` —
yet the code classifies it as the float `100000`, because
`strconv.ParseFloat` accepts exponent notation.  So it is not the case
that only texts matching `-?digits(.digits)?` are classified as
numbers. -/
theorem c1_counterexample :
    specNumeric "1e5".data = false ∧ specClassify "1e5" = Value.str "1e5" ∧
    cleanFieldText "1e5" = Value.float (.finite 100000) :=
  ⟨by decide, by decide, by decide⟩

/-- C1 (amended): for every raw field text the classification follows
exactly the spec's ordered rules — trim; empty or `null` (case
insensitively) to null; `true`/`false` to a boolean; then number;
otherwise the trimmed text as a string — except that the numeric step
accepts exactly what Go's `strconv` accepts (signed 64-bit integers,
then floats with exponent, hex, `inf`/`nan` and underscore syntax)
rather than the bare `-?digits(.digits)?` pattern.  Exactly one of the
five value kinds results, by construction of `Value`. -/
theorem c1_classification_rules (s : String) :
    cleanFieldText s = specClassifyGo s := by
  unfold cleanFieldText classifyValue specClassifyGo
  by_cases h1 : goTrimSpace s.data = [] <;>
    by_cases h2 : lowerStr (goTrimSpace s.data) = ['n', 'u', 'l', 'l'] <;>
      simp [h1, h2]

/-! ## Claim C5: quoted and unquoted fields -/

/-- C5 counterexample: after unescaping, a quoted field ` true `
(surrounding spaces inside the quotes) is *not* trimmed and
`cleanField` classifies it as the string `" true "`, while the
identical unquoted text is trimmed first and classifies as the boolean
`true` — the classification applied to quoted fields skips the
claimed trimming step. -/
theorem c5_counterexample :
    cleanField (.quoted "\" true \"".data) = Value.str " true " ∧
    cleanField (.unquoted " true ".data) = Value.bool true :=
  ⟨by decide, by decide⟩

/-- C5 (amended): the same classification core is applied to the
literal text of quoted and unquoted fields alike — value coercion does
apply to quoted fields, e.g. quoted `true` becomes a boolean — except
for the initial whitespace trimming, which is applied only to unquoted
fields: a quoted field is unquoted and unescaped but never trimmed. -/
theorem c5_same_heuristic_modulo_trim :
    (∀ s : List Char,
      cleanField (.quoted ('"' :: s ++ ['"'])) = classifyValue (unescapeQQ s)) ∧
    (∀ s : List Char, cleanField (.unquoted s) = classifyValue (goTrimSpace s)) ∧
    cleanField (.quoted "\"true\"".data) = Value.bool true ∧
    cleanField (.quoted "\"19.99\"".data) =
      Value.float (.finite (mkRat 1999 100)) := by
  refine ⟨fun s => ?_, fun s => rfl, by decide, by decide⟩
  show classifyValue (unescapeQQ (trimOneQuoteSuf
    (trimOneQuotePre ('"' :: s ++ ['"'])))) = _
  simp [trimOneQuotePre, trimOneQuoteSuf, List.getLast?_concat,
    List.dropLast_concat]

/-! ## Claims C8 and C10: the `transform` state machine -/

def isHeaderLine : Line → Bool
  | .header _ => true
  | _ => false

def isSchemaOrData : Line → Bool
  | .schema _ => true
  | .row _ => true
  | _ => false

/-- The table names declared by the header lines, in line order. -/
def headerNames : List Line → List (List Char)
  | [] => []
  | .header n :: r => n :: headerNames r
  | _ :: r => headerNames r

def finishTables : List Table × Option Table → List Table
  | (ts, some t) => ts ++ [t]
  | (ts, none) => ts

theorem transformGo_eq (lines : List Line) :
    transformGo lines = ⟨finishTables (lines.foldl transformStep ([], none))⟩ := by
  unfold transformGo
  rcases lines.foldl transformStep ([], none) with ⟨ts, _ | t⟩ <;> rfl

theorem finish_foldl_names (lines : List Line) :
    ∀ (ts : List Table) (cur : Option Table),
      (finishTables (lines.foldl transformStep (ts, cur))).map Table.name =
        ts.map Table.name ++ (cur.map Table.name).toList ++
          (headerNames lines).map String.mk := by
  induction lines with
  | nil => intro ts cur; cases cur <;> simp [finishTables, headerNames]
  | cons l r ih =>
    intro ts cur
    cases l with
    | header n => cases cur <;> simp [transformStep, headerNames, ih]
    | schema cols => cases cur <;> simp [transformStep, headerNames, ih]
    | row fs => cases cur <;> simp [transformStep, headerNames, ih]
    | comment => cases cur <;> simp [transformStep, headerNames, ih]
    | empty => cases cur <;> simp [transformStep, headerNames, ih]

/-- C8: two consecutive table-header lines are claimed to yield two
tables in source order (the repository's multiple-table test asserts
the same), but the parser never recognizes a table header — the
`'#' '!'` literals cannot match the `TableMarker` token — so the parse
of `"#! A\n#! B\n"` succeeds with zero tables, not the claimed two. -/
theorem c8_table_order_evaluated :
    parseString "#! A\n#! B\n" = some ⟨[]⟩ ∧
    parseString "#! A\n#@ x:int\n1\n#! B\n2\n" = some ⟨[]⟩ := by
  refine ⟨by decide, by decide⟩

/-- Remove schema-definition and data-row lines occurring before the
first table-header line. -/
def dropPreHeaderSD : List Line → List Line
  | [] => []
  | l :: r =>
    if isHeaderLine l then l :: r
    else if isSchemaOrData l then dropPreHeaderSD r
    else l :: dropPreHeaderSD r

theorem foldl_dropPreHeaderSD (lines : List Line) :
    lines.foldl transformStep ([], none) =
      (dropPreHeaderSD lines).foldl transformStep ([], none) := by
  induction lines with
  | nil => rfl
  | cons l r ih =>
    cases l with
    | header n => simp [dropPreHeaderSD, isHeaderLine]
    | schema cols => simpa [dropPreHeaderSD, isHeaderLine, isSchemaOrData,
        transformStep] using ih
    | row fs => simpa [dropPreHeaderSD, isHeaderLine, isSchemaOrData,
        transformStep] using ih
    | comment => simpa [dropPreHeaderSD, isHeaderLine, isSchemaOrData,
        transformStep] using ih
    | empty => simpa [dropPreHeaderSD, isHeaderLine, isSchemaOrData,
        transformStep] using ih

/-- C10 counterexample: a data-row line placed before any table header
does not always leave the parse successful — the line `]` (a data row
under the specified grammar) contains a character no lexer rule
matches, so the whole parse fails, while the same input without that
line parses; the result is therefore not identical to that of the
stripped input, against the claim that such lines are silently
ignored without error. -/
theorem c10_counterexample :
    parseString "]\n#! T\n#@ a:int\n" = none ∧
    parseString "#! T\n#@ a:int\n" = some ⟨[]⟩ :=
  ⟨by decide, by decide⟩

/-- C10 (amended): at the document-builder level, schema and data lines
before the first header line are indeed ignored — folding `transform`
over a line sequence equals folding it over the sequence with those
lines removed; and when a pre-header line does lex, the parse result
is unchanged by it (concretely both parses below return the zero-table
document, since the parser never recognizes any header).  But a
pre-header line whose text fails to lex (e.g. containing `]`) fails
the whole parse, so such lines are not unconditionally ignorable. -/
theorem c10_preheader_lines_ignored :
    (∀ lines : List Line,
      transformGo lines = transformGo (dropPreHeaderSD lines)) ∧
    parseString "1, 2\n#! T\n#@ a:int\n" = parseString "#! T\n#@ a:int\n" ∧
    parseString "1, 2\n#! T\n#@ a:int\n" = some ⟨[]⟩ := by
  refine ⟨fun lines => ?_, by decide, by decide⟩
  rw [transformGo_eq, transformGo_eq, foldl_dropPreHeaderSD]

/-! ## Tokenizer stepping lemmas

These drive the symbolic lexing of rendered type expressions (claim
C3) and of table headers over arbitrary identifiers (claim C9). -/

theorem spanP_append_of (p : Char → Bool) (xs ys : List Char)
    (h1 : ∀ x ∈ xs, p x = true)
    (h2 : ∀ c, ys.head? = some c → p c = false) :
    spanP p (xs ++ ys) = (xs, ys) := by
  induction xs with
  | nil =>
    cases ys with
    | nil => rfl
    | cons c r => simp [spanP, h2 c rfl]
  | cons x xs ih =>
    have hx := h1 x (by simp)
    have ih2 := ih (fun a ha => h1 a (by simp [ha]))
    simp [spanP, hx, ih2]

theorem spanP_parts (p : Char → Bool) (l a b : List Char)
    (h : spanP p l = (a, b)) : l = a ++ b := by
  induction l generalizing a b with
  | nil => simp [spanP] at h; simp [h.1, h.2]
  | cons c r ih =>
    by_cases hc : p c
    · simp only [spanP, hc, if_pos] at h
      rcases hs : spanP p r with ⟨a', b'⟩
      rw [hs] at h
      cases h
      simpa using ih a' b' hs
    · simp only [spanP, hc] at h
      cases h; rfl

theorem scanStrBody_parts_aux : ∀ (n : Nat) (l : List Char), l.length ≤ n →
    ∀ b rest, scanStrBody l = some (b, rest) → l = b ++ '"' :: rest := by
  intro n
  induction n with
  | zero =>
    intro l hl b rest h
    rcases l with _ | ⟨c, r⟩
    · simp [scanStrBody] at h
    · simp at hl
  | succ n ih =>
    intro l hl b rest h
    rcases l with _ | ⟨c, r⟩
    · simp [scanStrBody] at h
    rcases r with _ | ⟨c2, r2⟩
    · simp only [scanStrBody] at h
      by_cases hc : c = '"'
      · rw [if_pos hc] at h
        cases h
        simp [hc]
      · rw [if_neg hc] at h
        cases h
    · simp only [scanStrBody] at h
      by_cases hc : c = '"'
      · rw [if_pos hc] at h
        by_cases hc2 : c2 = '"'
        · rw [if_pos hc2] at h
          simp only [Option.map_eq_some'] at h
          obtain ⟨⟨b0, r0⟩, hb0, he⟩ := h
          cases he
          have hr := ih r2 (by simp at hl ⊢; omega) b0 r0 hb0
          simp [hr, hc, hc2]
        · rw [if_neg hc2] at h
          cases h
          rw [hc]
          rfl
      · rw [if_neg hc] at h
        simp only [Option.map_eq_some'] at h
        obtain ⟨⟨b0, r0⟩, hb0, he⟩ := h
        cases he
        have hr := ih (c2 :: r2) (by simp at hl ⊢; omega) b0 r0 hb0
        simp [hr]

theorem scanStrBody_parts (l b rest : List Char)
    (h : scanStrBody l = some (b, rest)) : l = b ++ '"' :: rest :=
  scanStrBody_parts_aux l.length l le_rfl b rest h

theorem matchKwPre_parts (k l t r : List Char)
    (h : matchKwPre k l = some (t, r)) :
    l = t ++ r ∧ t.length = k.length := by
  induction k generalizing l t r with
  | nil =>
    simp only [matchKwPre] at h
    cases h
    exact ⟨rfl, rfl⟩
  | cons kc ks ih =>
    cases l with
    | nil => simp [matchKwPre] at h
    | cons c cs =>
      simp only [matchKwPre] at h
      split at h
      · simp only [Option.map_eq_some'] at h
        obtain ⟨⟨t', r'⟩, hb, he⟩ := h
        cases he
        obtain ⟨h1, h2⟩ := ih cs t' r' hb
        simp [h1, h2]
      · cases h

theorem matchTypeName_go_parts (l : List Char) (ks : List (List Char))
    (hk : ∀ k ∈ ks, k ≠ []) (t r : List Char)
    (h : matchTypeName.go l ks = some (t, r)) :
    l = t ++ r ∧ t ≠ [] := by
  induction ks with
  | nil => simp [matchTypeName.go] at h
  | cons k ks ih =>
    rw [matchTypeName.go] at h
    rcases hm : matchKwPre k l with _ | ⟨t', r'⟩ <;> simp only [hm] at h
    · exact ih (fun a ha => hk a (by simp [ha])) h
    · by_cases hb : matchTypeName.boundaryOk r' = true
      · rw [if_pos hb] at h
        cases h
        obtain ⟨h1, h2⟩ := matchKwPre_parts _ _ _ _ hm
        refine ⟨h1, fun ht => ?_⟩
        exact hk k (by simp) (by simpa [ht] using h2.symm)
      · rw [if_neg hb] at h
        exact ih (fun a ha => hk a (by simp [ha])) h

theorem typeKeywords_nonempty : ∀ k ∈ typeKeywords, k ≠ [] := by decide

theorem matchTypeName_parts (l t r : List Char)
    (h : matchTypeName l = some (t, r)) : l = t ++ r ∧ t ≠ [] :=
  matchTypeName_go_parts l typeKeywords typeKeywords_nonempty t r h

theorem matchComment_parts (l t r : List Char)
    (h : matchComment l = some (t, r)) : l = t ++ r ∧ 2 ≤ t.length := by
  rcases l with _ | ⟨c0, l1⟩
  · simp [matchComment] at h
  rcases l1 with _ | ⟨c, l2⟩
  · simp [matchComment] at h
  simp only [matchComment] at h
  by_cases hc : (c0 = '#' && !(c = '!') && !(c = '@')) = true
  · rw [if_pos hc] at h
    rcases hs : spanP (fun x => !(x = '\n')) l2 with ⟨a, b⟩
    simp only [hs] at h
    cases h
    have he := spanP_parts _ _ _ _ hs
    exact ⟨by simp [he], by simp⟩
  · rw [if_neg hc] at h
    cases h

theorem matchTblMark_parts (l r : List Char)
    (h : matchTblMark l = some r) : l.length = r.length + 2 := by
  rcases l with _ | ⟨c0, l1⟩
  · simp [matchTblMark] at h
  rcases l1 with _ | ⟨c, l2⟩
  · simp [matchTblMark] at h
  simp only [matchTblMark] at h
  split at h
  · cases h; simp
  · cases h

theorem matchSchMark_parts (l r : List Char)
    (h : matchSchMark l = some r) : l.length = r.length + 2 := by
  rcases l with _ | ⟨c0, l1⟩
  · simp [matchSchMark] at h
  rcases l1 with _ | ⟨c, l2⟩
  · simp [matchSchMark] at h
  simp only [matchSchMark] at h
  split at h
  · cases h; simp
  · cases h

theorem matchString_parts (l t r : List Char)
    (h : matchString l = some (t, r)) : r.length + 2 ≤ l.length := by
  rcases l with _ | ⟨c, l1⟩
  · simp [matchString] at h
  simp only [matchString] at h
  split at h
  · simp only [Option.map_eq_some'] at h
    obtain ⟨⟨b0, r0⟩, hb0, he⟩ := h
    cases he
    have hp := scanStrBody_parts _ _ _ hb0
    simp [hp]
  · cases h

theorem matchIdent_parts (l t r : List Char)
    (h : matchIdent l = some (t, r)) : l = t ++ r ∧ t ≠ [] := by
  rcases l with _ | ⟨c, l1⟩
  · simp [matchIdent] at h
  simp only [matchIdent] at h
  split at h
  · rcases hs : spanP identContChar l1 with ⟨a, b⟩
    simp only [hs] at h
    cases h
    have he := spanP_parts _ _ _ _ hs
    exact ⟨by simp [he], by simp⟩
  · cases h

theorem matchNumTail_parts (sgn l1 t r : List Char)
    (h : matchNumTail sgn l1 = some (t, r)) :
    sgn ++ l1 = t ++ r ∧ sgn.length < t.length := by
  unfold matchNumTail at h
  rcases hs : spanP isDigitC l1 with ⟨ds, r1⟩
  simp only [hs] at h
  have hds := spanP_parts _ _ _ _ hs
  by_cases hne : ds = []
  · rw [if_pos hne] at h; cases h
  rw [if_neg hne] at h
  have hdl : 0 < ds.length := List.length_pos.mpr hne
  rcases r1 with _ | ⟨d, r2⟩
  · simp only [matchNumFrac] at h
    cases h
    refine ⟨by simp [hds], by simp <;> omega⟩
  simp only [matchNumFrac] at h
  by_cases hd : d = '.'
  · rw [if_pos hd] at h
    rcases hs2 : spanP isDigitC r2 with ⟨fs, r3⟩
    simp only [hs2] at h
    have hfs := spanP_parts _ _ _ _ hs2
    by_cases hfe : fs = []
    · rw [if_pos hfe] at h
      cases h
      refine ⟨by simp [hds], by simp <;> omega⟩
    · rw [if_neg hfe] at h
      cases h
      refine ⟨?_, by simp <;> omega⟩
      simp only [hds, hfs, hd]
      simp
  · rw [if_neg hd] at h
    cases h
    refine ⟨by simp [hds], by simp <;> omega⟩

theorem matchNumber_parts (l t r : List Char)
    (h : matchNumber l = some (t, r)) : l = t ++ r ∧ t ≠ [] := by
  rcases l with _ | ⟨c, l0⟩
  · simp [matchNumber] at h
  simp only [matchNumber] at h
  by_cases hc : c = '-'
  · rw [if_pos hc] at h
    obtain ⟨h1, h2⟩ := matchNumTail_parts _ _ _ _ h
    refine ⟨by simpa using h1, ?_⟩
    intro ht
    simp [ht] at h2
  · rw [if_neg hc] at h
    obtain ⟨h1, h2⟩ := matchNumTail_parts _ _ _ _ h
    refine ⟨by simpa using h1, ?_⟩
    intro ht
    simp [ht] at h2

theorem lexOther_shrinks (c : Char) (l r : List Char) (ot : Option Tok)
    (h : lexOther c l = some (ot, r)) : r.length < l.length + 1 := by
  unfold lexOther at h
  by_cases h1 : isPunctChar c = true
  · rw [if_pos h1] at h; cases h; simp
  rw [if_neg h1] at h
  by_cases h2 : c = '\n'
  · rw [if_pos h2] at h; cases h; simp
  rw [if_neg h2] at h
  by_cases h3 : c = '\r'
  · rw [if_pos h3] at h
    rcases l with _ | ⟨c2, r2⟩
    · cases h
    · simp only [lexCRLF] at h
      by_cases h4 : c2 = '\n'
      · rw [if_pos h4] at h
        cases h
        simp
        omega
      · rw [if_neg h4] at h
        cases h
  rw [if_neg h3] at h
  by_cases h4 : (c = ' ' || c = '\t') = true
  · rw [if_pos h4] at h
    rcases hs : spanP (fun x => x = ' ' || x = '\t') l with ⟨a, b⟩
    simp only [hs] at h
    cases h
    have hp := spanP_parts _ _ _ _ hs
    simp [hp]
    omega
  · rw [if_neg h4] at h
    cases h

/-- Every successful lexer step consumes at least one character. -/
theorem nextTok_shrinks (l : List Char) (ot : Option Tok) (r : List Char)
    (h : nextTok l = some (ot, r)) : r.length < l.length := by
  unfold nextTok at h
  rcases h1 : matchComment l with _ | ⟨t1, r1⟩ <;> simp only [h1] at h
  rotate_left
  · cases h
    obtain ⟨he, hlen⟩ := matchComment_parts _ _ _ h1
    simp [he]
    omega
  rcases h2 : matchTblMark l with _ | r2 <;> simp only [h2] at h
  rotate_left
  · cases h
    have hp := matchTblMark_parts _ _ h2
    omega
  rcases h3 : matchSchMark l with _ | r3 <;> simp only [h3] at h
  rotate_left
  · cases h
    have hp := matchSchMark_parts _ _ h3
    omega
  rcases h4 : matchTypeName l with _ | ⟨t4, r4⟩ <;> simp only [h4] at h
  rotate_left
  · cases h
    obtain ⟨he, hne⟩ := matchTypeName_parts _ _ _ h4
    rcases t4 with _ | ⟨a, b⟩
    · exact absurd rfl hne
    · simp [he]
      omega
  rcases h5 : matchString l with _ | ⟨t5, r5⟩ <;> simp only [h5] at h
  rotate_left
  · cases h
    have hp := matchString_parts _ _ _ h5
    omega
  rcases h6 : matchNumber l with _ | ⟨t6, r6⟩ <;> simp only [h6] at h
  rotate_left
  · cases h
    obtain ⟨he, hne⟩ := matchNumber_parts _ _ _ h6
    rcases t6 with _ | ⟨a, b⟩
    · exact absurd rfl hne
    · simp [he]
      omega
  rcases h7 : matchIdent l with _ | ⟨t7, r7⟩ <;> simp only [h7] at h
  rotate_left
  · cases h
    obtain ⟨he, hne⟩ := matchIdent_parts _ _ _ h7
    rcases t7 with _ | ⟨a, b⟩
    · exact absurd rfl hne
    · simp [he]
      omega
  rcases l with _ | ⟨c, r0⟩
  · cases h
  · have hp := lexOther_shrinks _ _ _ _ h
    simp
    omega

theorem tokenizeF_irrel : ∀ (n m : Nat) (l : List Char), l.length < n →
    l.length < m → tokenizeF n l = tokenizeF m l := by
  intro n
  induction n with
  | zero => intro m l h1 h2; omega
  | succ n ih =>
    intro m l h1 h2
    rcases m with _ | m
    · omega
    rcases l with _ | ⟨c, r0⟩
    · rfl
    simp only [tokenizeF]
    rcases hn : nextTok (c :: r0) with _ | ⟨ot, rest⟩ <;> simp only [hn]
    have hs := nextTok_shrinks _ _ _ hn
    rw [ih m rest (by simp at hs h1 ⊢; omega) (by simp at hs h2 ⊢; omega)]

theorem tokenize_nil : tokenize [] = some [] := rfl

/-- Unfold one lexer step of the tokenizer. -/
theorem tokenize_cons (l : List Char) (ot : Option Tok) (rest : List Char)
    (h : nextTok l = some (ot, rest)) :
    tokenize l = (tokenize rest).map
      (fun ts => match ot with | some t => t :: ts | none => ts) := by
  have hs := nextTok_shrinks _ _ _ h
  rcases l with _ | ⟨c, r0⟩
  · simp at hs
  unfold tokenize
  simp only [tokenizeF, h]
  rw [tokenizeF_irrel ((c :: r0).length) (rest.length + 1) rest (by omega)
    (by omega)]
  rcases tokenizeF (rest.length + 1) rest with _ | ts
  · rfl
  · rcases ot with _ | t <;> rfl

/-! ## Lexable identifiers

`identToken` is the shape of an `Ident` token; `hasKwBoundary` detects
a `TypeName` keyword prefix that ends at a word boundary (either
inside the identifier — possible because the boundary assertion `\b`
is ASCII while identifiers admit non-ASCII letters — or at its end,
where every delimiter that can follow a name in the grammar is a
non-word character).  `identLexable` names are exactly those that lex
as a single `Ident` token in every such context. -/

def identToken : List Char → Bool
  | [] => false
  | c :: cs => identStartChar c && cs.all identContChar

def kwBoundaryAt (k l : List Char) : Bool :=
  match matchKwPre k l with
  | none => false
  | some (_, rest) => matchTypeName.boundaryOk rest

def hasKwBoundary (l : List Char) : Bool :=
  typeKeywords.any (fun k => kwBoundaryAt k l)

def identLexable (l : List Char) : Bool := identToken l && !hasKwBoundary l

/-! Character-class facts. -/

theorem identCont_of_wordChar (c : Char) (h : isWordChar c = true) :
    identContChar c = true := by
  simp only [isWordChar, Bool.or_eq_true] at h
  rcases h with ((h | h) | h) | h <;>
    simp [identContChar, identStartChar, h]

theorem wordChar_false_of_identCont (c : Char) (h : identContChar c = false) :
    isWordChar c = false := by
  by_contra hw
  rw [identCont_of_wordChar c (by revert hw; cases isWordChar c <;> simp)] at h
  cases h

theorem identCont_longS : identContChar 'ſ' = true := by decide

theorem isDigit_toNat (c : Char) (h : isDigitC c = true) :
    48 ≤ c.toNat ∧ c.toNat ≤ 57 := by
  simp only [isDigitC, Bool.and_eq_true, decide_eq_true_eq] at h
  obtain ⟨h1, h2⟩ := h
  exact ⟨h1, h2⟩

theorem identStart_not_digit (c : Char) (h : identStartChar c = true) :
    isDigitC c = false := by
  by_contra hd
  have hd2 : isDigitC c = true := by revert hd; cases isDigitC c <;> simp
  obtain ⟨hlo, hhi⟩ := isDigit_toNat c hd2
  simp only [identStartChar, isAsciiLowerC, isAsciiUpperC, inRangeC,
    Bool.or_eq_true, Bool.and_eq_true, decide_eq_true_eq] at h
  rcases h with ((((((((h | h) | h) | h) | h) | h) | h) | h) | h) | h
  · obtain ⟨a, b⟩ := h; omega
  · obtain ⟨a, b⟩ := h; omega
  · subst h; simp at hlo hhi
  all_goals obtain ⟨a, b⟩ := h; omega

theorem digit_not_upper (c : Char) (h : isDigitC c = true) :
    isAsciiUpperC c = false := by
  obtain ⟨hlo, hhi⟩ := isDigit_toNat c h
  simp only [isAsciiUpperC, Bool.and_eq_true, decide_eq_true_eq]
  by_contra hb
  simp only [Bool.not_eq_false, Bool.and_eq_true, decide_eq_true_eq] at hb
  omega

theorem asciiLower_digit (c : Char) (h : isDigitC c = true) :
    asciiLowerChar c = c := by
  simp [asciiLowerChar, digit_not_upper c h]
theorem charMatchesKw_nonword (d kc : Char) (hd : isWordChar d = false)
    (hds : d ≠ 'ſ') (hkc : isWordChar kc = true) :
    charMatchesKw d kc = false := by
  have hu : isAsciiUpperC d = false := by
    by_contra hu
    simp only [Bool.not_eq_false] at hu
    simp [isWordChar, hu] at hd
  have hl : asciiLowerChar d = d := by simp [asciiLowerChar, hu]
  have hne : d ≠ kc := by
    intro he
    rw [he, hkc] at hd
    cases hd
  simp [charMatchesKw, hl, hne, hds]

theorem matchKwPre_append_some (k l m t r : List Char)
    (h : matchKwPre k l = some (t, r)) :
    matchKwPre k (l ++ m) = some (t, r ++ m) := by
  induction k generalizing l t r with
  | nil =>
    simp only [matchKwPre] at h ⊢
    cases h
    rfl
  | cons kc ks ih =>
    cases l with
    | nil => simp [matchKwPre] at h
    | cons c cs =>
      simp only [matchKwPre] at h ⊢
      split at h
      · rename_i hc
        rw [if_pos hc]
        simp only [Option.map_eq_some'] at h
        obtain ⟨⟨t', r'⟩, hb, he⟩ := h
        cases he
        simp [ih _ _ _ hb]
      · cases h

theorem matchKwPre_append_none (k l : List Char) (d : Char) (m : List Char)
    (hm : matchKwPre k l = none)
    (hchar : ∀ kc ∈ k, charMatchesKw d kc = false) :
    matchKwPre k (l ++ d :: m) = none := by
  induction k generalizing l with
  | nil => simp [matchKwPre] at hm
  | cons kc ks ih =>
    cases l with
    | nil =>
      simp [matchKwPre, hchar kc (by simp)]
    | cons c cs =>
      simp only [matchKwPre] at hm ⊢
      split at hm
      · rename_i hc
        rw [if_pos hc]
        have hn : matchKwPre ks cs = none := by
          rcases hx : matchKwPre ks cs with _ | ⟨t', r'⟩
          · rfl
          · rw [hx] at hm; simp at hm
        simp [ih cs hn (fun a ha => hchar a (by simp [ha]))]
      · rename_i hc
        rw [if_neg hc]

theorem typeKeywords_wordchars :
    ∀ k ∈ typeKeywords, ∀ c ∈ k, isWordChar c = true := by decide

/-- Generic emptiness of the `TypeName` alternative scan. -/
theorem matchTypeName_go_none (l : List Char) (ks : List (List Char))
    (h : ∀ k ∈ ks, matchKwPre k l = none ∨
      ∃ t r, matchKwPre k l = some (t, r) ∧
        matchTypeName.boundaryOk r = false) :
    matchTypeName.go l ks = none := by
  induction ks with
  | nil => rfl
  | cons k ks ih =>
    rw [matchTypeName.go]
    rcases h k (by simp) with hk | ⟨t, r, hk, hb⟩
    · rw [hk]
      exact ih (fun a ha => h a (by simp [ha]))
    · rw [hk]
      simp only [hb]
      exact ih (fun a ha => h a (by simp [ha]))

/-- A name with no keyword boundary, followed by a non-identifier
delimiter, never matches the `TypeName` rule. -/
theorem matchTypeName_none_of_lexable (l : List Char) (d : Char)
    (m : List Char) (hkw : hasKwBoundary l = false)
    (hd : identContChar d = false) :
    matchTypeName (l ++ d :: m) = none := by
  have hdw : isWordChar d = false := wordChar_false_of_identCont d hd
  have hdS : d ≠ 'ſ' := by
    intro he
    rw [he, identCont_longS] at hd
    cases hd
  apply matchTypeName_go_none
  intro k hk
  simp only [hasKwBoundary, List.any_eq_false] at hkw
  have hbk := hkw k hk
  rcases hm : matchKwPre k l with _ | ⟨t, r⟩
  · left
    exact matchKwPre_append_none k l d m hm
      (fun kc hkc => charMatchesKw_nonword d kc hdw hdS
        (typeKeywords_wordchars k hk kc hkc))
  · right
    refine ⟨t, r ++ d :: m, matchKwPre_append_some k l (d :: m) t r hm, ?_⟩
    simp only [kwBoundaryAt, hm] at hbk
    rcases r with _ | ⟨c, r'⟩
    · simp [matchTypeName.boundaryOk] at hbk
    · simpa [matchTypeName.boundaryOk] using hbk
/-- The first characters of the `TypeName` keywords. -/
def kwHeads : List Char := ['i', 'u', 'f', 'b', 's', 't', 'd', 'r', 'e']

theorem typeKeywords_head_mem :
    ∀ k ∈ typeKeywords, ∀ kc ks, k = kc :: ks → kc ∈ kwHeads := by
  intro k hk kc ks he
  fin_cases hk <;> (cases he; decide)

theorem matchTypeName_none_headc (c : Char) (m : List Char)
    (h : ∀ kc ∈ kwHeads, charMatchesKw c kc = false) :
    matchTypeName (c :: m) = none := by
  apply matchTypeName_go_none
  intro k hk
  left
  rcases hsh : k with _ | ⟨kc, ks⟩
  · exact absurd hsh (typeKeywords_nonempty _ (hsh ▸ hk))
  · simp [matchKwPre, h kc (typeKeywords_head_mem k hk kc ks hsh)]

theorem charMatchesKw_digit (c kc : Char) (hc : isDigitC c = true)
    (hkc : isDigitC kc = false) : charMatchesKw c kc = false := by
  have h1 : asciiLowerChar c = c := asciiLower_digit c hc
  simp only [charMatchesKw, h1, Bool.or_eq_false_iff, Bool.and_eq_false_iff]
  constructor
  · simp only [decide_eq_false_iff_not]
    intro he
    rw [he, hkc] at hc
    cases hc
  · right
    simp only [decide_eq_false_iff_not]
    intro he
    rw [he] at hc
    exact absurd hc (by decide)

theorem matchTypeName_none_digit (c : Char) (m : List Char)
    (hc : isDigitC c = true) : matchTypeName (c :: m) = none := by
  apply matchTypeName_none_headc
  intro kc hkc
  fin_cases hkc <;> exact charMatchesKw_digit c _ hc (by decide)

theorem identStart_ne (c x : Char) (hst : identStartChar c = true)
    (hx : identStartChar x = false) : c ≠ x := by
  intro he
  rw [he, hx] at hst
  cases hst

theorem digit_ne (c x : Char) (hc : isDigitC c = true)
    (hx : isDigitC x = false) : c ≠ x := by
  intro he
  rw [he, hx] at hc
  cases hc

theorem matchComment_nonhash (c : Char) (l : List Char) (hc : c ≠ '#') :
    matchComment (c :: l) = none := by
  rcases l with _ | ⟨c2, l2⟩
  · rfl
  · simp [matchComment, hc]

theorem matchTblMark_nonhash (c : Char) (l : List Char) (hc : c ≠ '#') :
    matchTblMark (c :: l) = none := by
  rcases l with _ | ⟨c2, l2⟩
  · rfl
  · simp [matchTblMark, hc]

theorem matchSchMark_nonhash (c : Char) (l : List Char) (hc : c ≠ '#') :
    matchSchMark (c :: l) = none := by
  rcases l with _ | ⟨c2, l2⟩
  · rfl
  · simp [matchSchMark, hc]

theorem matchString_nonquote (c : Char) (l : List Char) (hc : c ≠ '"') :
    matchString (c :: l) = none := by
  simp [matchString, hc]

theorem matchNumber_nondigit (c : Char) (l : List Char)
    (hc : isDigitC c = false) (hm : c ≠ '-') :
    matchNumber (c :: l) = none := by
  simp [matchNumber, hm, matchNumTail, spanP, hc]

theorem matchIdent_nonstart (c : Char) (l : List Char)
    (hc : identStartChar c = false) : matchIdent (c :: l) = none := by
  simp [matchIdent, hc]

/-- When every rule before `Punct` fails on the head character, the
lexer step is `lexOther`. -/
theorem nextTok_fallthrough (c : Char) (rest : List Char)
    (h1 : c ≠ '#') (h2 : ∀ kc ∈ kwHeads, charMatchesKw c kc = false)
    (h3 : c ≠ '"') (h4 : isDigitC c = false) (h5 : c ≠ '-')
    (h6 : identStartChar c = false) :
    nextTok (c :: rest) = lexOther c rest := by
  unfold nextTok
  simp only [matchComment_nonhash c rest h1, matchTblMark_nonhash c rest h1,
    matchSchMark_nonhash c rest h1, matchTypeName_none_headc c rest h2,
    matchString_nonquote c rest h3, matchNumber_nondigit c rest h4 h5,
    matchIdent_nonstart c rest h6]

theorem nextTok_nl (rest : List Char) :
    nextTok ('\n' :: rest) = some (some .nl, rest) := by
  rw [nextTok_fallthrough '\n' rest (by decide) (by decide) (by decide)
    (by decide) (by decide) (by decide)]
  rfl

theorem nextTok_space (rest : List Char)
    (h : ∀ c, rest.head? = some c → (c = ' ' || c = '\t') = false) :
    nextTok (' ' :: rest) = some (none, rest) := by
  rw [nextTok_fallthrough ' ' rest (by decide) (by decide) (by decide)
    (by decide) (by decide) (by decide)]
  rcases rest with _ | ⟨c, r⟩
  · rfl
  · have hp := h c rfl
    simp [lexOther, spanP, hp, isPunctChar]

theorem nextTok_identTok (c : Char) (cs : List Char) (d : Char)
    (m : List Char) (hst : identStartChar c = true)
    (hcs : ∀ x ∈ cs, identContChar x = true)
    (hkw : matchTypeName (c :: (cs ++ d :: m)) = none)
    (hd : identContChar d = false) :
    nextTok ((c :: cs) ++ d :: m) = some (some (.ident (c :: cs)), d :: m) := by
  have hc1 : c ≠ '#' := identStart_ne c '#' hst (by decide)
  have hc3 : c ≠ '"' := identStart_ne c '"' hst (by decide)
  have hc4 : isDigitC c = false := identStart_not_digit c hst
  have hc5 : c ≠ '-' := identStart_ne c '-' hst (by decide)
  simp only [List.cons_append]
  unfold nextTok
  simp only [matchComment_nonhash _ _ hc1, matchTblMark_nonhash _ _ hc1,
    matchSchMark_nonhash _ _ hc1, hkw, matchString_nonquote _ _ hc3,
    matchNumber_nondigit _ _ hc4 hc5]
  have hspan : spanP identContChar (cs ++ d :: m) = (cs, d :: m) :=
    spanP_append_of _ _ _ hcs (by intro x hx; cases hx; simp [hd])
  simp [matchIdent, hst, hspan]

theorem nextTok_digitsTok (c : Char) (cs : List Char) (d : Char)
    (m : List Char) (hc : isDigitC c = true)
    (hcs : ∀ x ∈ cs, isDigitC x = true)
    (hd : isDigitC d = false) (hd2 : d ≠ '.') :
    nextTok ((c :: cs) ++ d :: m) = some (some (.num (c :: cs)), d :: m) := by
  have hc1 : c ≠ '#' := digit_ne c '#' hc (by decide)
  have hc5 : c ≠ '-' := digit_ne c '-' hc (by decide)
  simp only [List.cons_append]
  unfold nextTok
  simp only [matchComment_nonhash _ _ hc1, matchTblMark_nonhash _ _ hc1,
    matchSchMark_nonhash _ _ hc1, matchTypeName_none_digit _ _ hc,
    matchString_nonquote _ _ (digit_ne c '"' hc (by decide))]
  have hspan : spanP isDigitC (cs ++ d :: m) = (cs, d :: m) :=
    spanP_append_of _ _ _ hcs (by intro x hx; cases hx; simp [hd])
  have hnum : matchNumber (c :: (cs ++ d :: m)) =
      some (c :: cs, d :: m) := by
    simp only [matchNumber, if_neg hc5, matchNumTail, spanP, hc, if_pos,
      hspan]
    simp [matchNumFrac, hd2, hd]
  simp only [hnum]
theorem boundaryOk_cons (c : Char) (m : List Char) :
    matchTypeName.boundaryOk (c :: m) = !isWordChar c := rfl

theorem matchTypeName_kw (k : List Char) (rest : List Char)
    (hk : k ∈ typeKeywords) (hb : matchTypeName.boundaryOk rest = true) :
    matchTypeName (k ++ rest) = some (k, rest) := by
  fin_cases hk <;>
    simp [matchTypeName, matchTypeName.go, matchKwPre, charMatchesKw,
      asciiLowerChar, isAsciiUpperC, boundaryOk_cons, isWordChar, hb] <;>
    decide

theorem nextTok_kw (k : List Char) (rest : List Char)
    (hk : k ∈ typeKeywords) (hb : matchTypeName.boundaryOk rest = true) :
    nextTok (k ++ rest) = some (some (.tyName k), rest) := by
  have hmt := matchTypeName_kw k rest hk hb
  obtain ⟨kc, ks, rfl⟩ : ∃ kc ks, k = kc :: ks := by
    rcases k with _ | ⟨kc, ks⟩
    · exact absurd rfl (typeKeywords_nonempty _ hk)
    · exact ⟨kc, ks, rfl⟩
  have hh : kc ∈ kwHeads := typeKeywords_head_mem _ hk _ _ rfl
  have hc1 : kc ≠ '#' := by fin_cases hh <;> decide
  simp only [List.cons_append] at hmt ⊢
  unfold nextTok
  simp only [matchComment_nonhash _ _ hc1, matchTblMark_nonhash _ _ hc1,
    matchSchMark_nonhash _ _ hc1, hmt]

theorem nextTok_punctTok (c : Char) (rest : List Char)
    (h1 : c ≠ '#') (h2 : ∀ kc ∈ kwHeads, charMatchesKw c kc = false)
    (h3 : c ≠ '"') (h4 : isDigitC c = false) (h5 : c ≠ '-')
    (h6 : identStartChar c = false) (h7 : isPunctChar c = true) :
    nextTok (c :: rest) = some (some (.punct c), rest) := by
  rw [nextTok_fallthrough c rest h1 h2 h3 h4 h5 h6]
  simp [lexOther, h7]

/-! Tokenizer steps for whole tokens. -/

theorem tokenize_identTok (name : List Char) (d : Char) (m : List Char)
    (h : identLexable name = true) (hd : identContChar d = false) :
    tokenize (name ++ d :: m) = (tokenize (d :: m)).map (.ident name :: ·) := by
  rcases name with _ | ⟨c, cs⟩
  · simp [identLexable, identToken] at h
  simp only [identLexable, Bool.and_eq_true] at h
  obtain ⟨hid, hkwb⟩ := h
  simp only [identToken, Bool.and_eq_true, List.all_eq_true] at hid
  have hkw : matchTypeName ((c :: cs) ++ d :: m) = none :=
    matchTypeName_none_of_lexable (c :: cs) d m (by simpa using hkwb) hd
  rw [tokenize_cons _ _ _ (nextTok_identTok c cs d m hid.1
    (fun x hx => hid.2 x hx) (by simpa using hkw) hd)]

theorem tokenize_numTok (c : Char) (cs : List Char) (d : Char)
    (m : List Char) (hc : isDigitC c = true)
    (hcs : ∀ x ∈ cs, isDigitC x = true)
    (hd : isDigitC d = false) (hd2 : d ≠ '.') :
    tokenize ((c :: cs) ++ d :: m) =
      (tokenize (d :: m)).map (.num (c :: cs) :: ·) := by
  rw [tokenize_cons _ _ _ (nextTok_digitsTok c cs d m hc hcs hd hd2)]

theorem tokenize_kwTok (k : List Char) (rest : List Char)
    (hk : k ∈ typeKeywords) (hb : matchTypeName.boundaryOk rest = true) :
    tokenize (k ++ rest) = (tokenize rest).map (.tyName k :: ·) := by
  rw [tokenize_cons _ _ _ (nextTok_kw k rest hk hb)]

theorem tokenize_punctTok (c : Char) (rest : List Char)
    (h1 : c ≠ '#') (h2 : ∀ kc ∈ kwHeads, charMatchesKw c kc = false)
    (h3 : c ≠ '"') (h4 : isDigitC c = false) (h5 : c ≠ '-')
    (h6 : identStartChar c = false) (h7 : isPunctChar c = true) :
    tokenize (c :: rest) = (tokenize rest).map (.punct c :: ·) := by
  rw [tokenize_cons _ _ _ (nextTok_punctTok c rest h1 h2 h3 h4 h5 h6 h7)]

theorem tokenize_nlTok (rest : List Char) :
    tokenize ('\n' :: rest) = (tokenize rest).map (.nl :: ·) := by
  rw [tokenize_cons _ _ _ (nextTok_nl rest)]

theorem tokenize_spaceTok (rest : List Char)
    (h : ∀ c, rest.head? = some c → (c = ' ' || c = '\t') = false) :
    tokenize (' ' :: rest) = tokenize rest := by
  rw [tokenize_cons _ _ _ (nextTok_space rest h)]
  rcases tokenize rest with _ | ts <;> rfl
theorem identLexable_shape (name : List Char) (h : identLexable name = true) :
    ∃ c cs, name = c :: cs ∧ identStartChar c = true ∧
      ∀ x ∈ cs, identContChar x = true := by
  rcases name with _ | ⟨c, cs⟩
  · simp [identLexable, identToken] at h
  · simp only [identLexable, identToken, Bool.and_eq_true,
      List.all_eq_true] at h
    exact ⟨c, cs, rfl, h.1.1, h.1.2⟩

/-- Lexing a table-header line over an arbitrary lexable identifier. -/
theorem tokenize_header (name : List Char) (h : identLexable name = true) :
    tokenize ('#' :: '!' :: ' ' :: (name ++ ['\n'])) =
      some [.tblMark, .ident name, .nl] := by
  obtain ⟨c, cs, rfl, hst, _⟩ := identLexable_shape name h
  have h1 : nextTok ('#' :: '!' :: ' ' :: ((c :: cs) ++ ['\n'])) =
      some (some .tblMark, ' ' :: ((c :: cs) ++ ['\n'])) := rfl
  rw [tokenize_cons _ _ _ h1]
  rw [tokenize_spaceTok _ (by
    intro x hx
    simp only [List.cons_append, List.head?_cons] at hx
    cases hx
    simp [identStart_ne c ' ' hst (by decide),
      identStart_ne c '\t' hst (by decide)])]
  rw [tokenize_identTok (c :: cs) '\n' [] h (by decide)]
  rfl

/-- Lexing a one-column schema line `#@ name:int` over an arbitrary
lexable identifier. -/
theorem tokenize_schema_name (name : List Char)
    (h : identLexable name = true) :
    tokenize ('#' :: '@' :: ' ' :: (name ++ ':' :: 'i' :: 'n' :: 't' :: ['\n'])) =
      some [.schMark, .ident name, .punct ':',
        .tyName ['i', 'n', 't'], .nl] := by
  obtain ⟨c, cs, rfl, hst, _⟩ := identLexable_shape name h
  have h1 : nextTok ('#' :: '@' :: ' ' ::
      ((c :: cs) ++ ':' :: 'i' :: 'n' :: 't' :: ['\n'])) =
      some (some .schMark, ' ' ::
        ((c :: cs) ++ ':' :: 'i' :: 'n' :: 't' :: ['\n'])) := rfl
  rw [tokenize_cons _ _ _ h1]
  rw [tokenize_spaceTok _ (by
    intro x hx
    simp only [List.cons_append, List.head?_cons] at hx
    cases hx
    simp [identStart_ne c ' ' hst (by decide),
      identStart_ne c '\t' hst (by decide)])]
  rw [tokenize_identTok (c :: cs) ':' _ h (by decide)]
  rw [tokenize_punctTok ':' _ (by decide) (by decide) (by decide)
    (by decide) (by decide) (by decide) (by decide)]
  rfl

/-- Lexing a two-line document: header `#! T`, then schema line
`#@ name:int`, with an arbitrary lexable column identifier. -/
theorem tokenize_hdr_schema (name : List Char) (h : identLexable name = true) :
    tokenize ('#' :: '!' :: ' ' :: 'T' :: '\n' :: '#' :: '@' :: ' ' ::
        (name ++ ':' :: 'i' :: 'n' :: 't' :: ['\n'])) =
      some [.tblMark, .ident ['T'], .nl, .schMark, .ident name,
        .punct ':', .tyName ['i', 'n', 't'], .nl] := by
  have h1 : nextTok ('#' :: '!' :: ' ' :: 'T' :: '\n' :: '#' :: '@' :: ' ' ::
      (name ++ ':' :: 'i' :: 'n' :: 't' :: ['\n'])) =
      some (some .tblMark, ' ' :: 'T' :: '\n' :: '#' :: '@' :: ' ' ::
        (name ++ ':' :: 'i' :: 'n' :: 't' :: ['\n'])) := rfl
  rw [tokenize_cons _ _ _ h1]
  rw [tokenize_spaceTok _ (by
    intro x hx
    simp only [List.head?_cons] at hx
    cases hx
    decide)]
  have h3 : tokenize ('T' :: '\n' :: '#' :: '@' :: ' ' ::
      (name ++ ':' :: 'i' :: 'n' :: 't' :: ['\n'])) =
      (tokenize ('\n' :: '#' :: '@' :: ' ' ::
        (name ++ ':' :: 'i' :: 'n' :: 't' :: ['\n']))).map
        (fun ts => Tok.ident ['T'] :: ts) :=
    tokenize_identTok ['T'] '\n' _ (by decide) (by decide)
  rw [h3, tokenize_nlTok, tokenize_schema_name name h]
  rfl

/-- C9 counterexample: the spec says the lexer accepts identifiers whose
characters are arbitrary Unicode letters, but the `Ident` rule only covers
ASCII letters, underscore and eight explicit ranges (Latin-1 Supplement
through Latin Extended-B, Latin Extended Additional, Cyrillic, Greek, CJK
Unified Ideographs, Hiragana, Katakana).  The Hebrew letter א (U+05D0) is
a Unicode letter yet starts no token, so a table named א is a lexing
failure: `ParseString` returns an error, modelled as `none`. -/
theorem c9_counterexample :
    identStartChar 'א' = false ∧ parseString "#! א\n" = none :=
  ⟨rfl, rfl⟩

/-- A lexable identifier is never a token the field negation
`~( ',' | Newline | '#' )` rejects. -/
theorem fieldTokOk_ident (name : List Char)
    (h : identLexable name = true) : fieldTokOk (.ident name) = true := by
  obtain ⟨c, cs, rfl, hst, _⟩ := identLexable_shape name h
  have h1 : (c :: cs : List Char) ≠ [','] := by
    intro he
    cases he
    exact absurd hst (by decide)
  have h2 : (c :: cs : List Char) ≠ ['#'] := by
    intro he
    cases he
    exact absurd hst (by decide)
  simp [fieldTokOk, tokValue, h1, h2]

/-- `transform` over a line sequence with no header line builds no
table: the accumulator keeps an empty current table forever. -/
theorem foldl_no_header (lines : List Line)
    (h : ∀ l ∈ lines, isHeaderLine l = false) (ts : List Table) :
    lines.foldl transformStep (ts, none) = (ts, none) := by
  induction lines with
  | nil => rfl
  | cons l r ih =>
    have hl := h l (by simp)
    have hstep : transformStep (ts, none) l = (ts, none) := by
      cases l with
      | header n => simp [isHeaderLine] at hl
      | schema cols => rfl
      | row fs => rfl
      | comment => rfl
      | empty => rfl
    rw [List.foldl_cons, hstep, ih (fun x hx => h x (by simp [hx]))]

/-- C9 (amended): identifiers within the ranges the `Ident` rule covers
(`identLexable`) do lex, but the byte-for-byte preservation the spec
describes is unobservable: the grammar's `'#' '!'` literal sequence
never matches the `TableMarker` token, a header line parses as a data
row, and `ParseString` returns the zero-table document — no table or
column name is ever returned at all. -/
theorem c9_identifier_preservation (name : List Char)
    (h : identLexable name = true) :
    parseString (String.mk ('#' :: '!' :: ' ' :: (name ++ ['\n']))) =
      some ⟨[]⟩ := by
  have hfi := fieldTokOk_ident name h
  have h1 : fieldTokOk Tok.tblMark = true := by decide
  have h2 : fieldTokOk Tok.nl = false := by decide
  have hspan : spanT fieldTokOk [Tok.tblMark, Tok.ident name, Tok.nl] =
      ([Tok.tblMark, Tok.ident name], [Tok.nl]) := by
    simp [spanT, h1, h2, hfi]
  have hpf : pField [Tok.tblMark, Tok.ident name, Tok.nl] =
      (.unquoted ('#' :: '!' :: name), [Tok.nl]) := by
    simp [pField, hspan, tokValue]
  have hdr : pDataRowL [Tok.tblMark, Tok.ident name, Tok.nl] =
      .ok (.row [.unquoted ('#' :: '!' :: name)]) [] := by
    simp [pDataRowL, hpf, pRowRestF]
  have hline : parseLine [Tok.tblMark, Tok.ident name, Tok.nl] =
      .ok (.row [.unquoted ('#' :: '!' :: name)]) [] := by
    simp [parseLine, pCommentL, pTableHeaderL, pSchemaDefL, litTok,
      tokValue, hdr]
  show ((tokenize ('#' :: '!' :: ' ' :: (name ++ ['\n']))).bind
    parseTokens).map transformGo = _
  rw [tokenize_header name h]
  show (parseLinesF 4 [Tok.tblMark, Tok.ident name, Tok.nl]).map
    transformGo = _
  rw [show parseLinesF 4 [Tok.tblMark, Tok.ident name, Tok.nl] =
      some [.row [.unquoted ('#' :: '!' :: name)]] by
    simp [parseLinesF, hline]]
  show some (transformGo [.row [.unquoted ('#' :: '!' :: name)]]) = _
  rw [transformGo_eq, foldl_no_header _ (by simp [isHeaderLine]) []]
  rfl

/-- Witness for the amended C9 theorem at the multi-script identifier
Café (with U+00E9). -/
theorem c9_identifier_preservation_witness :
    identLexable "Café".data = true ∧
    parseString (String.mk ('#' :: '!' :: ' ' :: ("Café".data ++ ['\n']))) =
      some ⟨[]⟩ :=
  ⟨by decide, c9_identifier_preservation "Café".data (by decide)⟩


/-! ## Claim C3: round-trip of type descriptors -/

/-- The base types that take no parameter payload. -/
def simpleKw : List (List Char) :=
  [['i', '8'], ['i', '1', '6'], ['i', '3', '2'], ['i', '6', '4'],
   ['i', 'n', 't'], ['u', '8'], ['u', '1', '6'], ['u', '3', '2'],
   ['u', '6', '4'], ['u', 'i', 'n', 't'], ['f', '3', '2'], ['f', '6', '4'],
   ['f', 'l', 'o', 'a', 't'], ['b', 'o', 'o', 'l'], ['s', 't', 'r'],
   ['t', 'e', 'x', 't'], ['d', 'a', 't', 'e'], ['t', 'i', 'm', 'e'],
   ['d', 'a', 't', 'e', 't', 'i', 'm', 'e'],
   ['t', 'i', 'm', 'e', 's', 't', 'a', 'm', 'p']]

/-- A nonempty all-digit parameter (lexes as one `Number` token). -/
def digitsNE (l : List Char) : Bool := decide (l ≠ []) && l.all isDigitC

/-- Characters of the modifier suffix rendered by `formatType`. -/
def modChars (arr nul : Bool) : List Char :=
  (if arr then ['[', ']'] else []) ++ (if nul then ['?'] else [])

/-- Tokens of the modifier suffix. -/
def modToks (arr nul : Bool) : List Tok :=
  (if arr then [Tok.punct '[', Tok.punct ']'] else []) ++
    (if nul then [Tok.punct '?'] else [])

/-- Token rendering of `'|'`-separated enum values after the first. -/
def sepToks : List (List Char) → List Tok
  | [] => []
  | p :: ps => Tok.punct '|' :: Tok.ident p :: sepToks ps

/-- A descriptor in the domain of the round-trip claim: lexable column
name, canonical (lowercase) base type with exactly its required
parameter payload, and any modifier combination. -/
def wellFormedDesc (c : ColumnDef) : Bool :=
  identLexable c.name &&
  ((decide (c.typeName ∈ simpleKw) && decide (c.params = [])) ||
   ((decide (c.typeName = ['d', 'e', 'c', 'i', 'm', 'a', 'l']) &&
     (match c.params with
      | [p, q] => digitsNE p && digitsNE q
      | _ => false)) ||
   ((decide (c.typeName = ['r', 'e', 'f']) &&
     (match c.params with
      | [p, q] => identLexable p && identLexable q
      | _ => false)) ||
   (decide (c.typeName = ['e', 'n', 'u', 'm']) && decide (c.params ≠ []) &&
     c.params.all identLexable))))

theorem tokenize_mods_nonarray (nul : Bool) :
    tokenize (modChars false nul) = some (modToks false nul) := by
  cases nul <;> rfl

/-- With the array modifier the rendered suffix contains `]`, which no
lexer rule matches: lexing fails. -/
theorem tokenize_mods_array (nul : Bool) :
    tokenize (modChars true nul) = none := by
  cases nul <;> rfl

theorem modChars_boundary (arr nul : Bool) :
    matchTypeName.boundaryOk (modChars arr nul) = true := by
  cases arr <;> cases nul <;> rfl

/-- Assembles `resolveColumn` from a lexed type expression and an
evaluated `pColumnDef`. -/
theorem resolveColumn_concrete (nm : List Char) (h : identLexable nm = true)
    (rest : List Char) (ts : List Tok) (hr : tokenize rest = some ts)
    (c : ColumnDef)
    (hc : pColumnDef (.ident nm :: .punct ':' :: ts) = some (c, [])) :
    resolveColumn (String.mk (nm ++ ':' :: rest)) = some c := by
  have e1 : tokenize (nm ++ ':' :: rest) =
      some (.ident nm :: .punct ':' :: ts) := by
    rw [tokenize_identTok nm ':' rest h (by decide),
      tokenize_punctTok ':' rest (by decide) (by decide) (by decide)
        (by decide) (by decide) (by decide) (by decide), hr]
    rfl
  show (tokenize (nm ++ ':' :: rest)).bind _ = some c
  rw [e1]
  show (match pColumnDef (.ident nm :: .punct ':' :: ts) with
    | some (cc, []) => some cc
    | _ => none) = some c
  rw [hc]

/-- `resolveColumn` fails whenever the type expression fails to lex. -/
theorem resolveColumn_of_lexfail (nm : List Char)
    (h : identLexable nm = true) (rest : List Char)
    (hr : tokenize rest = none) :
    resolveColumn (String.mk (nm ++ ':' :: rest)) = none := by
  have e1 : tokenize (nm ++ ':' :: rest) = none := by
    rw [tokenize_identTok nm ':' rest h (by decide),
      tokenize_punctTok ':' rest (by decide) (by decide) (by decide)
        (by decide) (by decide) (by decide) (by decide), hr]
    rfl
  show (tokenize (nm ++ ':' :: rest)).bind _ = none
  rw [e1]
  rfl

theorem pColumnDef_simple (nm tn : List Char) (arr nul : Bool) :
    pColumnDef (.ident nm :: .punct ':' :: .tyName tn :: modToks arr nul) =
      some (⟨nm, tn, [], arr, nul⟩, []) := by
  cases arr <;> cases nul <;> rfl

theorem pColumnDef_dec (nm p q : List Char) (arr nul : Bool) :
    pColumnDef (.ident nm :: .punct ':' ::
        .tyName ['d', 'e', 'c', 'i', 'm', 'a', 'l'] :: .punct '(' ::
        .num p :: .punct ',' :: .num q :: .punct ')' :: modToks arr nul) =
      some (⟨nm, ['d', 'e', 'c', 'i', 'm', 'a', 'l'], [p, q], arr, nul⟩, []) := by
  cases arr <;> cases nul <;> rfl

theorem pColumnDef_ref (nm p q : List Char) (arr nul : Bool) :
    pColumnDef (.ident nm :: .punct ':' :: .tyName ['r', 'e', 'f'] ::
        .punct '(' :: .ident p :: .punct '.' :: .ident q :: .punct ')' ::
        modToks arr nul) =
      some (⟨nm, ['r', 'e', 'f'], [p, q], arr, nul⟩, []) := by
  cases arr <;> cases nul <;> rfl

theorem pParamsTail_sep (ps : List (List Char)) (m : List Tok) :
    pParamsTail (sepToks ps ++ .punct ')' :: m) = some (ps, m) := by
  induction ps with
  | nil =>
    show pParamsTail (Tok.punct ')' :: m) = some ([], m)
    rcases m with _ | ⟨t, ts⟩
    · rfl
    · rcases t <;> rfl
  | cons p ps ih => simp [sepToks, pParamsTail, ih]

theorem pColumnDef_enum (nm p0 : List Char) (ps : List (List Char))
    (arr nul : Bool) :
    pColumnDef (.ident nm :: .punct ':' :: .tyName ['e', 'n', 'u', 'm'] ::
        .punct '(' :: .ident p0 :: (sepToks ps ++ .punct ')' ::
        modToks arr nul)) =
      some (⟨nm, ['e', 'n', 'u', 'm'], p0 :: ps, arr, nul⟩, []) := by
  cases arr <;> cases nul <;> simp [pColumnDef, pParamsTail_sep, modToks]

theorem tokenize_decimal (p q m : List Char)
    (hp : p ≠ []) (hpd : ∀ x ∈ p, isDigitC x = true)
    (hq : q ≠ []) (hqd : ∀ x ∈ q, isDigitC x = true) :
    tokenize ('d' :: 'e' :: 'c' :: 'i' :: 'm' :: 'a' :: 'l' :: '(' ::
        (p ++ ',' :: (q ++ ')' :: m))) =
      (tokenize m).map (fun ts =>
        .tyName ['d', 'e', 'c', 'i', 'm', 'a', 'l'] :: .punct '(' ::
          .num p :: .punct ',' :: .num q :: .punct ')' :: ts) := by
  obtain ⟨c1, p1, rfl⟩ : ∃ c1 p1, p = c1 :: p1 := by
    rcases p with _ | ⟨a, b⟩
    · exact absurd rfl hp
    · exact ⟨a, b, rfl⟩
  obtain ⟨c2, q1, rfl⟩ : ∃ c2 q1, q = c2 :: q1 := by
    rcases q with _ | ⟨a, b⟩
    · exact absurd rfl hq
    · exact ⟨a, b, rfl⟩
  have hkw : tokenize ('d' :: 'e' :: 'c' :: 'i' :: 'm' :: 'a' :: 'l' :: '(' ::
      ((c1 :: p1) ++ ',' :: ((c2 :: q1) ++ ')' :: m))) =
      (tokenize ('(' :: ((c1 :: p1) ++ ',' ::
        ((c2 :: q1) ++ ')' :: m)))).map
        (fun ts => Tok.tyName ['d', 'e', 'c', 'i', 'm', 'a', 'l'] :: ts) :=
    tokenize_kwTok ['d', 'e', 'c', 'i', 'm', 'a', 'l'] _ (by decide) rfl
  rw [hkw]
  rw [tokenize_punctTok '(' _ (by decide) (by decide) (by decide) (by decide)
    (by decide) (by decide) (by decide)]
  rw [tokenize_numTok c1 p1 ',' _ (hpd c1 (by simp))
    (fun x hx => hpd x (by simp [hx])) (by decide) (by decide)]
  rw [tokenize_punctTok ',' _ (by decide) (by decide) (by decide) (by decide)
    (by decide) (by decide) (by decide)]
  rw [tokenize_numTok c2 q1 ')' _ (hqd c2 (by simp))
    (fun x hx => hqd x (by simp [hx])) (by decide) (by decide)]
  rw [tokenize_punctTok ')' _ (by decide) (by decide) (by decide) (by decide)
    (by decide) (by decide) (by decide)]
  rcases tokenize m with _ | ts <;> rfl

theorem tokenize_ref (p q m : List Char)
    (hp : identLexable p = true) (hq : identLexable q = true) :
    tokenize ('r' :: 'e' :: 'f' :: '(' :: (p ++ '.' :: (q ++ ')' :: m))) =
      (tokenize m).map (fun ts =>
        .tyName ['r', 'e', 'f'] :: .punct '(' :: .ident p :: .punct '.' ::
          .ident q :: .punct ')' :: ts) := by
  have hkw : tokenize ('r' :: 'e' :: 'f' :: '(' ::
      (p ++ '.' :: (q ++ ')' :: m))) =
      (tokenize ('(' :: (p ++ '.' :: (q ++ ')' :: m)))).map
        (fun ts => Tok.tyName ['r', 'e', 'f'] :: ts) :=
    tokenize_kwTok ['r', 'e', 'f'] _ (by decide) rfl
  rw [hkw]
  rw [tokenize_punctTok '(' _ (by decide) (by decide) (by decide) (by decide)
    (by decide) (by decide) (by decide)]
  rw [tokenize_identTok p '.' _ hp (by decide)]
  rw [tokenize_punctTok '.' _ (by decide) (by decide) (by decide) (by decide)
    (by decide) (by decide) (by decide)]
  rw [tokenize_identTok q ')' _ hq (by decide)]
  rw [tokenize_punctTok ')' _ (by decide) (by decide) (by decide) (by decide)
    (by decide) (by decide) (by decide)]
  rcases tokenize m with _ | ts <;> rfl

theorem tokenize_enum_tail (ps : List (List Char)) (p : List Char)
    (m : List Char)
    (hp : identLexable p = true) (hps : ∀ x ∈ ps, identLexable x = true) :
    tokenize (joinSep [' ', '|', ' '] (p :: ps) ++ ')' :: m) =
      (tokenize m).map (fun ts =>
        .ident p :: sepToks ps ++ .punct ')' :: ts) := by
  induction ps generalizing p with
  | nil =>
    show tokenize (p ++ ')' :: m) = _
    rw [tokenize_identTok p ')' m hp (by decide)]
    rw [tokenize_punctTok ')' m (by decide) (by decide) (by decide) (by decide)
      (by decide) (by decide) (by decide)]
    rcases tokenize m with _ | ts <;> rfl
  | cons p2 ps ih =>
    have hshape : joinSep [' ', '|', ' '] (p :: p2 :: ps) ++ ')' :: m =
        p ++ ' ' :: '|' :: ' ' ::
          (joinSep [' ', '|', ' '] (p2 :: ps) ++ ')' :: m) := by
      simp [joinSep, List.append_assoc]
    rw [hshape, tokenize_identTok p ' ' _ hp (by decide)]
    rw [tokenize_spaceTok _ (by
      intro x hx
      simp only [List.head?_cons] at hx
      cases hx
      decide)]
    rw [tokenize_punctTok '|' _ (by decide) (by decide) (by decide) (by decide)
      (by decide) (by decide) (by decide)]
    have hp2 := hps p2 (by simp)
    obtain ⟨c2, cs2, he2, hst2, _⟩ := identLexable_shape p2 hp2
    have hhead : (joinSep [' ', '|', ' '] (p2 :: ps) ++ ')' :: m).head? =
        some c2 := by
      cases ps <;> simp [joinSep, he2]
    rw [tokenize_spaceTok _ (by
      intro x hx
      rw [hhead] at hx
      cases hx
      simp [identStart_ne c2 ' ' hst2 (by decide),
        identStart_ne c2 '\t' hst2 (by decide)])]
    rw [ih p2 hp2 (fun x hx => hps x (by simp [hx]))]
    rcases tokenize m with _ | ts <;> rfl

theorem tokenize_enum (p : List Char) (ps : List (List Char)) (m : List Char)
    (hp : identLexable p = true) (hps : ∀ x ∈ ps, identLexable x = true) :
    tokenize ('e' :: 'n' :: 'u' :: 'm' :: '(' ::
        (joinSep [' ', '|', ' '] (p :: ps) ++ ')' :: m)) =
      (tokenize m).map (fun ts =>
        .tyName ['e', 'n', 'u', 'm'] :: .punct '(' ::
          (.ident p :: sepToks ps ++ .punct ')' :: ts)) := by
  have hkw : tokenize ('e' :: 'n' :: 'u' :: 'm' :: '(' ::
      (joinSep [' ', '|', ' '] (p :: ps) ++ ')' :: m)) =
      (tokenize ('(' :: (joinSep [' ', '|', ' '] (p :: ps) ++ ')' ::
        m))).map
        (fun ts => Tok.tyName ['e', 'n', 'u', 'm'] :: ts) :=
    tokenize_kwTok ['e', 'n', 'u', 'm'] _ (by decide) rfl
  rw [hkw]
  rw [tokenize_punctTok '(' _ (by decide) (by decide) (by decide) (by decide)
    (by decide) (by decide) (by decide)]
  rw [tokenize_enum_tail ps p _ hp hps]
  rcases tokenize m with _ | ts <;> rfl

theorem simpleKw_facts (tn : List Char) (h : tn ∈ simpleKw) :
    tn ∈ typeKeywords ∧ lowerStr tn = tn := by
  fin_cases h <;> exact ⟨by decide, by decide⟩

/-- C3: the claimed round-trip `resolve(render(d)) = d` for every base
type and every modifier combination fails for every descriptor with the
array modifier, because its rendering contains `]`, which the `Punct`
lexer rule never matches (the class lacks `]` and the `\[\]`
alternative is preempted by `[`): resolving the rendering is a lexing
error, not the descriptor — against the claim and the repository's own
array tests.  Without the array modifier the round-trip does hold: the
rendering lexes and the `columnDef` fragment returns exactly the
original descriptor. -/
theorem c3_descriptor_roundtrip (c : ColumnDef)
    (h : wellFormedDesc c = true) :
    (c.array = true →
      resolveColumn (String.mk (c.name ++ ':' :: formatType c)) = none) ∧
    (c.array = false →
      resolveColumn (String.mk (c.name ++ ':' :: formatType c)) = some c) := by
  obtain ⟨nm, tn, ps, arr, nul⟩ := c
  simp only [wellFormedDesc, Bool.and_eq_true, Bool.or_eq_true,
    decide_eq_true_eq, List.all_eq_true] at h
  obtain ⟨hnm, hty⟩ := h
  rcases hty with ⟨htn, hps⟩ | ⟨htn, hps⟩ | ⟨htn, hps⟩ | ⟨⟨htn, hne⟩, hall⟩
  · subst hps
    obtain ⟨htk, hlow⟩ := simpleKw_facts tn htn
    have hshape : formatType ⟨nm, tn, [], arr, nul⟩ =
        tn ++ modChars arr nul := by
      show (lowerStr tn ++ (if arr then ['[', ']'] else [])) ++
        (if nul then ['?'] else []) = tn ++ modChars arr nul
      rw [hlow]
      simp [modChars, List.append_assoc]
    rw [hshape]
    constructor
    · intro ha
      subst ha
      have hneg : tokenize (tn ++ modChars true nul) = none := by
        rw [tokenize_kwTok tn _ htk (modChars_boundary true nul),
          tokenize_mods_array]
        rfl
      exact resolveColumn_of_lexfail _ hnm _ hneg
    · intro ha
      subst ha
      have htok : tokenize (tn ++ modChars false nul) =
          some (.tyName tn :: modToks false nul) := by
        rw [tokenize_kwTok tn _ htk (modChars_boundary false nul),
          tokenize_mods_nonarray]
        rfl
      exact resolveColumn_concrete _ hnm _ _ htok _
        (pColumnDef_simple nm tn false nul)
  · subst htn
    rcases ps with _ | ⟨p, _ | ⟨q, _ | ⟨r, rs⟩⟩⟩
    · simp at hps
    · simp at hps
    rotate_left
    · simp at hps
    simp only [digitsNE, Bool.and_eq_true, decide_eq_true_eq,
      List.all_eq_true] at hps
    obtain ⟨⟨hpne, hpd⟩, hqne, hqd⟩ := hps
    have hshape : formatType ⟨nm, ['d', 'e', 'c', 'i', 'm', 'a', 'l'],
        [p, q], arr, nul⟩ =
        'd' :: 'e' :: 'c' :: 'i' :: 'm' :: 'a' :: 'l' :: '(' ::
          (p ++ ',' :: (q ++ ')' :: modChars arr nul)) := by
      show ('d' :: 'e' :: 'c' :: 'i' :: 'm' :: 'a' :: 'l' :: '(' :: p) ++
        [','] ++ q ++ [')'] ++ (if arr then ['[', ']'] else []) ++
        (if nul then ['?'] else []) = _
      simp [modChars, List.append_assoc]
    rw [hshape]
    constructor
    · intro ha
      subst ha
      have hneg : tokenize ('d' :: 'e' :: 'c' :: 'i' :: 'm' :: 'a' :: 'l' ::
          '(' :: (p ++ ',' :: (q ++ ')' :: modChars true nul))) = none := by
        rw [tokenize_decimal p q _ hpne hpd hqne hqd, tokenize_mods_array]
        rfl
      exact resolveColumn_of_lexfail _ hnm _ hneg
    · intro ha
      subst ha
      have hpos : tokenize ('d' :: 'e' :: 'c' :: 'i' :: 'm' :: 'a' :: 'l' ::
          '(' :: (p ++ ',' :: (q ++ ')' :: modChars false nul))) =
          some (.tyName ['d', 'e', 'c', 'i', 'm', 'a', 'l'] :: .punct '(' ::
            .num p :: .punct ',' :: .num q :: .punct ')' ::
            modToks false nul) := by
        rw [tokenize_decimal p q _ hpne hpd hqne hqd, tokenize_mods_nonarray]
        rfl
      exact resolveColumn_concrete _ hnm _ _ hpos _
        (pColumnDef_dec nm p q false nul)
  · subst htn
    rcases ps with _ | ⟨p, _ | ⟨q, _ | ⟨r, rs⟩⟩⟩
    · simp at hps
    · simp at hps
    rotate_left
    · simp at hps
    simp only [Bool.and_eq_true] at hps
    obtain ⟨hpl, hql⟩ := hps
    have hshape : formatType ⟨nm, ['r', 'e', 'f'], [p, q], arr, nul⟩ =
        'r' :: 'e' :: 'f' :: '(' ::
          (p ++ '.' :: (q ++ ')' :: modChars arr nul)) := by
      show ('r' :: 'e' :: 'f' :: '(' :: p) ++ ['.'] ++ q ++ [')'] ++
        (if arr then ['[', ']'] else []) ++ (if nul then ['?'] else []) = _
      simp [modChars, List.append_assoc]
    rw [hshape]
    constructor
    · intro ha
      subst ha
      have hneg : tokenize ('r' :: 'e' :: 'f' :: '(' ::
          (p ++ '.' :: (q ++ ')' :: modChars true nul))) = none := by
        rw [tokenize_ref p q _ hpl hql, tokenize_mods_array]
        rfl
      exact resolveColumn_of_lexfail _ hnm _ hneg
    · intro ha
      subst ha
      have hpos : tokenize ('r' :: 'e' :: 'f' :: '(' ::
          (p ++ '.' :: (q ++ ')' :: modChars false nul))) =
          some (.tyName ['r', 'e', 'f'] :: .punct '(' :: .ident p ::
            .punct '.' :: .ident q :: .punct ')' :: modToks false nul) := by
        rw [tokenize_ref p q _ hpl hql, tokenize_mods_nonarray]
        rfl
      exact resolveColumn_concrete _ hnm _ _ hpos _
        (pColumnDef_ref nm p q false nul)
  · subst htn
    rcases ps with _ | ⟨p0, ps'⟩
    · exact absurd rfl hne
    have hp0 : identLexable p0 = true := hall p0 (by simp)
    have hrest : ∀ x ∈ ps', identLexable x = true :=
      fun x hx => hall x (by simp [hx])
    have hshape : formatType ⟨nm, ['e', 'n', 'u', 'm'], p0 :: ps',
        arr, nul⟩ =
        'e' :: 'n' :: 'u' :: 'm' :: '(' ::
          (joinSep [' ', '|', ' '] (p0 :: ps') ++ ')' ::
            modChars arr nul) := by
      simp [formatType, modChars, List.append_assoc,
        show lowerStr ['e', 'n', 'u', 'm'] = ['e', 'n', 'u', 'm'] from by decide]
    rw [hshape]
    constructor
    · intro ha
      subst ha
      have hneg : tokenize ('e' :: 'n' :: 'u' :: 'm' :: '(' ::
          (joinSep [' ', '|', ' '] (p0 :: ps') ++ ')' ::
            modChars true nul)) = none := by
        rw [tokenize_enum p0 ps' _ hp0 hrest, tokenize_mods_array]
        rfl
      exact resolveColumn_of_lexfail _ hnm _ hneg
    · intro ha
      subst ha
      have hpos : tokenize ('e' :: 'n' :: 'u' :: 'm' :: '(' ::
          (joinSep [' ', '|', ' '] (p0 :: ps') ++ ')' ::
            modChars false nul)) =
          some (.tyName ['e', 'n', 'u', 'm'] :: .punct '(' ::
            (.ident p0 :: sepToks ps' ++ .punct ')' ::
              modToks false nul)) := by
        rw [tokenize_enum p0 ps' _ hp0 hrest, tokenize_mods_nonarray]
        rfl
      exact resolveColumn_concrete _ hnm _ _ hpos _
        (pColumnDef_enum nm p0 ps' false nul)

/-- Witness for C3: the array rendering `tags:str[]` fails to resolve,
while the modifier-free rendering `price:decimal(10,2)?` round-trips. -/
theorem c3_descriptor_roundtrip_witness :
    wellFormedDesc ⟨['t', 'a', 'g', 's'], ['s', 't', 'r'], [],
      true, false⟩ = true ∧
    resolveColumn "tags:str[]" = none ∧
    wellFormedDesc ⟨['p', 'r', 'i', 'c', 'e'],
      ['d', 'e', 'c', 'i', 'm', 'a', 'l'], [['1', '0'], ['2']],
      false, true⟩ = true ∧
    resolveColumn "price:decimal(10,2)?" =
      some ⟨['p', 'r', 'i', 'c', 'e'], ['d', 'e', 'c', 'i', 'm', 'a', 'l'],
        [['1', '0'], ['2']], false, true⟩ := by
  refine ⟨by decide, ?_, by decide, ?_⟩
  · exact (c3_descriptor_roundtrip ⟨['t', 'a', 'g', 's'], ['s', 't', 'r'],
      [], true, false⟩ (by decide)).1 rfl
  · exact (c3_descriptor_roundtrip ⟨['p', 'r', 'i', 'c', 'e'],
      ['d', 'e', 'c', 'i', 'm', 'a', 'l'], [['1', '0'], ['2']],
      false, true⟩ (by decide)).2 rfl

end ThreeTL
